import Mathlib

/-!
Verification of the 2D constrained Delaunay triangulation engine
(`cdt2d`, sweep triangulator, Delaunay refiner, face classifier,
point-in-polygon filter) of this repository.

The JavaScript/TypeScript source works on IEEE numbers; following the
standard idealisation for geometric code, numbers are modelled as exact
rationals.  Because the kernel must be able to evaluate the embedded
program on concrete inputs, rationals are represented by an executable
fraction type `Q` (integer numerator, positive integer denominator,
no normalisation); the bridge `Q.toRat` transfers facts to `ℚ`.

Arrays are modelled by lists; out-of-range array reads, which in the
source lead to `undefined` dereferences and hence to a thrown
`TypeError`, are modelled by `Except.error`.  A JS run that returns
normally corresponds to an `Except.ok` value of the embedding.
-/

namespace CDT

/-- Executable unnormalised fraction: `num / den` with `0 < den`. -/
structure Q where
  num : Int
  den : Int
  dpos : 0 < den

namespace Q

def ofInt (n : Int) : Q := ⟨n, 1, by decide⟩

def zero : Q := ofInt 0

def add (a b : Q) : Q :=
  ⟨a.num * b.den + b.num * a.den, a.den * b.den, mul_pos a.dpos b.dpos⟩

def sub (a b : Q) : Q :=
  ⟨a.num * b.den - b.num * a.den, a.den * b.den, mul_pos a.dpos b.dpos⟩

def mul (a b : Q) : Q :=
  ⟨a.num * b.num, a.den * b.den, mul_pos a.dpos b.dpos⟩

def neg (a : Q) : Q := ⟨-a.num, a.den, a.dpos⟩

/-- `Math.abs`. -/
def qabs (a : Q) : Q := ⟨|a.num|, a.den, a.dpos⟩

/-- Division; division by (value) zero returns the junk value `0`
(the one place the source divides, it is guarded by a non-zero test). -/
def div (a b : Q) : Q :=
  if h : 0 < b.num then ⟨a.num * b.den, a.den * b.num, mul_pos a.dpos h⟩
  else if h' : b.num < 0 then
    ⟨-(a.num * b.den), a.den * (-b.num), mul_pos a.dpos (by omega)⟩
  else zero

/-- Value comparison `a < b`. -/
def blt (a b : Q) : Bool := a.num * b.den < b.num * a.den

/-- Value comparison `a ≤ b`. -/
def ble (a b : Q) : Bool := a.num * b.den ≤ b.num * a.den

/-- Value equality `a = b`. -/
def beq (a b : Q) : Bool := a.num * b.den = b.num * a.den

/-- JS truthiness of a number: non-zero value. -/
def isTruthy (a : Q) : Bool := a.num ≠ 0

def toRat (a : Q) : ℚ := (a.num : ℚ) / (a.den : ℚ)

/-- Value test `0 < a`. -/
def pos (a : Q) : Bool := 0 < a.num

/-- Value test `a < 0`. -/
def isNeg (a : Q) : Bool := a.num < 0

/-- Value test `0 ≤ a`. -/
def nonneg (a : Q) : Bool := 0 ≤ a.num

end Q

/-- A 2D point `[x, y]`. -/
abbrev Point : Type := Q × Q

/-- A constraint edge `[i, j]` of vertex indices. -/
abbrev Edge : Type := Nat × Nat

/-- A triangle `[a, b, c]` of vertex indices. -/
abbrev T3 : Type := Nat × Nat × Nat

/-- `orient2d` from the source:
`(a[1] - c[1]) * (b[0] - c[0]) - (a[0] - c[0]) * (b[1] - c[1])`. -/
def orient2d (a b c : Point) : Q :=
  Q.sub (Q.mul (Q.sub a.2 c.2) (Q.sub b.1 c.1)) (Q.mul (Q.sub a.1 c.1) (Q.sub b.2 c.2))

/-- `inCircle` from the source. -/
def inCircle (a b c d : Point) : Q :=
  let adx := Q.sub a.1 d.1
  let ady := Q.sub a.2 d.2
  let bdx := Q.sub b.1 d.1
  let bdy := Q.sub b.2 d.2
  let cdx := Q.sub c.1 d.1
  let cdy := Q.sub c.2 d.2
  let abdet := Q.sub (Q.mul adx bdy) (Q.mul bdx ady)
  let bcdet := Q.sub (Q.mul bdx cdy) (Q.mul cdx bdy)
  let cadet := Q.sub (Q.mul cdx ady) (Q.mul adx cdy)
  let alift := Q.add (Q.mul adx adx) (Q.mul ady ady)
  let blift := Q.add (Q.mul bdx bdx) (Q.mul bdy bdy)
  let clift := Q.add (Q.mul cdx cdx) (Q.mul cdy cdy)
  Q.add (Q.add (Q.mul alift bcdet) (Q.mul blift cadet)) (Q.mul clift abdet)

/-- `bsearchGe`: first index whose comparison against the query is `≥ 0`
(`a.length` if none), by binary search.  The comparator is heterogeneous
because the sweep searches hull lists against point/event queries.
The out-of-range read branch is unreachable from the entry points below
(`0 ≤ l ≤ m ≤ h < a.length` throughout). -/
def bsearchGeAux {α β : Type} (a : List α) (y : β) (c : α → β → Q) (l h i : Int) : Int :=
  if hlh : l ≤ h then
    let m := (l + h) / 2
    match a.get? m.toNat with
    | none => i
    | some x =>
      if Q.nonneg (c x y) then bsearchGeAux a y c l (m - 1) m
      else bsearchGeAux a y c (m + 1) h i
  else i
termination_by (h + 1 - l).toNat
decreasing_by all_goals omega

def bsearchGe {α β : Type} (a : List α) (y : β) (c : α → β → Q) : Int :=
  bsearchGeAux a y c 0 ((a.length : Int) - 1) (a.length : Int)

/-- `bsearchGt`: first index whose comparison is `> 0`. -/
def bsearchGtAux {α β : Type} (a : List α) (y : β) (c : α → β → Q) (l h i : Int) : Int :=
  if hlh : l ≤ h then
    let m := (l + h) / 2
    match a.get? m.toNat with
    | none => i
    | some x =>
      if Q.pos (c x y) then bsearchGtAux a y c l (m - 1) m
      else bsearchGtAux a y c (m + 1) h i
  else i
termination_by (h + 1 - l).toNat
decreasing_by all_goals omega

def bsearchGt {α β : Type} (a : List α) (y : β) (c : α → β → Q) : Int :=
  bsearchGtAux a y c 0 ((a.length : Int) - 1) (a.length : Int)

/-- `bsearchLt`: last index whose comparison is `< 0` (`-1` if none). -/
def bsearchLtAux {α β : Type} (a : List α) (y : β) (c : α → β → Q) (l h i : Int) : Int :=
  if hlh : l ≤ h then
    let m := (l + h) / 2
    match a.get? m.toNat with
    | none => i
    | some x =>
      if Q.isNeg (c x y) then bsearchLtAux a y c (m + 1) h m
      else bsearchLtAux a y c l (m - 1) i
  else i
termination_by (h + 1 - l).toNat
decreasing_by all_goals omega

def bsearchLt {α β : Type} (a : List α) (y : β) (c : α → β → Q) : Int :=
  bsearchLtAux a y c 0 ((a.length : Int) - 1) (-1)

/-- `bsearchLe`: last index whose comparison is `≤ 0` (`-1` if none). -/
def bsearchLeAux {α β : Type} (a : List α) (y : β) (c : α → β → Q) (l h i : Int) : Int :=
  if hlh : l ≤ h then
    let m := (l + h) / 2
    match a.get? m.toNat with
    | none => i
    | some x =>
      if Q.ble (c x y) Q.zero then bsearchLeAux a y c (m + 1) h m
      else bsearchLeAux a y c l (m - 1) i
  else i
termination_by (h + 1 - l).toNat
decreasing_by all_goals omega

def bsearchLe {α β : Type} (a : List α) (y : β) (c : α → β → Q) : Int :=
  bsearchLeAux a y c 0 ((a.length : Int) - 1) (-1)

/-- `bsearchEq`: some index whose comparison is `= 0`, or `-1`. -/
def bsearchEqAux {α β : Type} (a : List α) (y : β) (c : α → β → Q) (l h : Int) : Int :=
  if hlh : l ≤ h then
    let m := (l + h) / 2
    match a.get? m.toNat with
    | none => -1
    | some x =>
      let p := c x y
      if Q.beq p Q.zero then m
      else if Q.ble p Q.zero then bsearchEqAux a y c (m + 1) h
      else bsearchEqAux a y c l (m - 1)
  else -1
termination_by (h + 1 - l).toNat
decreasing_by all_goals omega

def bsearchEq {α β : Type} (a : List α) (y : β) (c : α → β → Q) : Int :=
  bsearchEqAux a y c 0 ((a.length : Int) - 1)

/-- `compareLex`: `a[0] - b[0] || a[1] - b[1]`. -/
def compareLex (a b : Edge) : Q :=
  let d := (a.1 : Int) - (b.1 : Int)
  if d ≠ 0 then Q.ofInt d else Q.ofInt ((a.2 : Int) - (b.2 : Int))

/-- Read `l[i]` for an arbitrary (possibly negative) JS index; an
out-of-range read dereferences `undefined` at the call sites modelled
here, i.e. throws. -/
def getI {α : Type} (l : List α) (i : Int) : Except String α :=
  if i < 0 then .error "negative index" else
    match l.get? i.toNat with
    | some x => .ok x
    | none => .error "index out of range"

def setI {α : Type} (l : List α) (i : Int) (x : α) : List α := l.set i.toNat x

def getPoint (points : List Point) (i : Nat) : Except String Point :=
  match points.get? i with
  | some p => .ok p
  | none => .error "point index out of range"

/-- A vertex star: the flat even-length list `[s0, t0, s1, t1, ...]` of the
source, represented as the list of its `(s, t)` pairs (every mutation in the
source adds or removes whole pairs, so star lists always have even length). -/
abbrev Star : Type := List (Nat × Nat)

/-- The `Triangulation` class state: per-vertex stars plus the canonical
sorted constraint edge list. -/
structure Tri where
  stars : List Star
  edges : List Edge

/-- `new Triangulation(numVerts, edges)`. -/
def Tri.make (numVerts : Nat) (edges : List Edge) : Tri :=
  ⟨List.replicate numVerts [], edges⟩

/-- `isConstraint(i, j)`. -/
def Tri.isConstraint (t : Tri) (i j : Nat) : Bool :=
  0 ≤ bsearchEq t.edges (min i j, max i j) compareLex

/-- `removePair(list, j, k)`: overwrite the first pair equal to `(j, k)`
with the last pair and drop the last pair. -/
def removePair (l : Star) (j k : Nat) : Star :=
  match l.findIdx? (fun pr => pr = (j, k)) with
  | none => l
  | some p =>
    match l.getLast? with
    | none => l
    | some last => (l.set p last).dropLast

/-- `removePair` with a possibly negative second pair component
(`-1` from a failed `opposite` lookup matches no stored pair). -/
def removePairSnd (l : Star) (j : Nat) (k : Int) : Star :=
  match k with
  | .ofNat k' => removePair l j k'
  | _ => l

/-- `removePair` with a possibly negative first pair component. -/
def removePairFst (l : Star) (j : Int) (k : Nat) : Star :=
  match j with
  | .ofNat j' => removePair l j' k
  | _ => l

/-- `addTriangle(i, j, k)`: push the three pairs into the three stars. -/
def Tri.addTriangle (t : Tri) (i j k : Nat) : Except String Tri := do
  let si ← getI t.stars i
  let s1 := setI t.stars i (si ++ [(j, k)])
  let sj ← getI s1 j
  let s2 := setI s1 j (sj ++ [(k, i)])
  let sk ← getI s2 k
  pure ⟨setI s2 k (sk ++ [(i, j)]), t.edges⟩

/-- `removeTriangle(i, j, k)` where `k` may be `-1` (failed lookup):
the first two `removePair`s match nothing then, and `stars[-1]` throws. -/
def Tri.removeTriangleI (t : Tri) (i j : Nat) (k : Int) : Except String Tri := do
  let si ← getI t.stars i
  let s1 := setI t.stars i (removePairSnd si j k)
  let sj ← getI s1 j
  let s2 := setI s1 j (removePairFst sj k i)
  let sk ← getI s2 k
  pure ⟨setI s2 k (removePair sk i j), t.edges⟩

/-- The scan inside `opposite`: first pair `(s, t)` with `t = j` gives `s`,
else `-1`. -/
def oppScan (l : Star) (j : Nat) : Int :=
  match l with
  | [] => -1
  | (s, t) :: rest => if t = j then (s : Int) else oppScan rest j

/-- `opposite(j, i)`: scan the star of `i` for the directed edge `i→j`. -/
def Tri.opposite (t : Tri) (j i : Nat) : Except String Int := do
  let si ← getI t.stars i
  pure (oppScan si j)

/-- `flip(i, j)`. -/
def Tri.flip (t : Tri) (i j : Nat) : Except String Tri := do
  let a ← t.opposite i j
  let b ← t.opposite j i
  let t1 ← t.removeTriangleI i j a
  let t2 ← t1.removeTriangleI j i b
  let t3 ← t2.addTriangle i b.toNat a.toNat
  t3.addTriangle j a.toNat b.toNat

/-- `cells()` on a star array: for every vertex `i` and pair `(s, t)` of its
star, emit `[i, s, t]` when `i < min(s, t)`. -/
def cellsOf (stars : List Star) : List T3 :=
  (List.range stars.length).flatMap fun i =>
    (stars.getD i []).filterMap fun st =>
      if i < min st.1 st.2 then some (i, st.1, st.2) else none

def Tri.cells (t : Tri) : List T3 := cellsOf t.stars

/-- The edge `{u, v}` is present in the triangulation state: `v` occurs in
some pair of `u`'s star (i.e. some registered triangle has the edge). -/
def mentions (stars : List Star) (u v : Nat) : Prop :=
  ∃ pr ∈ stars.getD u [], pr.1 = v ∨ pr.2 = v

instance mentionsDec (stars : List Star) (u v : Nat) : Decidable (mentions stars u v) := by
  unfold mentions
  infer_instance

/-- Sweep event; `type` is `0` (point), `1` (edge end), `2` (edge start);
`b` is `null` for point events. -/
structure Event where
  a : Point
  b : Option Point
  type : Int
  idx : Int

/-- Transient sweep state: one open x-monotone region. -/
structure PHull where
  a : Point
  b : Point
  idx : Int
  lowerIds : List Nat
  upperIds : List Nat

/-- `compareEvent`. -/
def compareEvent (x y : Event) : Q :=
  let d1 := Q.sub x.a.1 y.a.1
  if d1.isTruthy then d1 else
  let d2 := Q.sub x.a.2 y.a.2
  if d2.isTruthy then d2 else
  let d3 := Q.ofInt (x.type - y.type)
  if d3.isTruthy then d3 else
  match x.b, y.b with
  | some xb, some yb =>
    if x.type ≠ 0 then
      let d := orient2d x.a xb yb
      if d.isTruthy then d else Q.ofInt (x.idx - y.idx)
    else Q.ofInt (x.idx - y.idx)
  | _, _ => Q.ofInt (x.idx - y.idx)

/-- The stable comparator-based sort used for `Array.prototype.sort`:
insertion sort placing each element before the first later element that
does not compare strictly smaller — stable and, for the consistent
comparators used here, the same result as the engine's stable sort. -/
def sortByQ {α : Type} (c : α → α → Q) (l : List α) : List α :=
  List.insertionSort (fun x y => Q.ble (c x y) Q.zero = true) l

/-- `testPoint(hull, p)`. -/
def testPoint (hull : PHull) (p : Point) : Q := orient2d hull.a hull.b p

/-- The lower-hull pop loop of `addPoint`: while the chain keeps at least
two points and the turn test passes, emit `[ids[m-1], ids[m-2], idx]` and
pop.  Works on the chain tail exactly as the `m`-counter loop does. -/
def popLower (points : List Point) (p : Point) (idx : Nat) :
    List Nat → List T3 → Except String (List Nat × List T3)
  | ids, acc =>
    if h : 1 < ids.length then do
      let i2 := ids.getD (ids.length - 2) 0
      let i1 := ids.getD (ids.length - 1) 0
      let p2 ← getPoint points i2
      let p1 ← getPoint points i1
      if Q.pos (orient2d p2 p1 p) then
        popLower points p idx ids.dropLast (acc ++ [(i1, i2, idx)])
      else pure (ids, acc)
    else pure (ids, acc)
termination_by ids => ids.length
decreasing_by simp [List.length_dropLast]; omega

/-- The upper-hull pop loop of `addPoint` (mirrored turn sense, mirrored
emitted orientation). -/
def popUpper (points : List Point) (p : Point) (idx : Nat) :
    List Nat → List T3 → Except String (List Nat × List T3)
  | ids, acc =>
    if h : 1 < ids.length then do
      let i2 := ids.getD (ids.length - 2) 0
      let i1 := ids.getD (ids.length - 1) 0
      let p2 ← getPoint points i2
      let p1 ← getPoint points i1
      if Q.isNeg (orient2d p2 p1 p) then
        popUpper points p idx ids.dropLast (acc ++ [(i2, i1, idx)])
      else pure (ids, acc)
    else pure (ids, acc)
termination_by ids => ids.length
decreasing_by simp [List.length_dropLast]; omega

/-- One hull's update inside `addPoint`'s `for` loop. -/
def addPointHull (points : List Point) (p : Point) (idx : Nat) (hull : PHull) :
    Except String (PHull × List T3) := do
  let (lower, cl) ← popLower points p idx hull.lowerIds []
  let (upper, cu) ← popUpper points p idx hull.upperIds []
  pure ({ hull with lowerIds := lower ++ [idx], upperIds := upper ++ [idx] }, cl ++ cu)

/-- The `for (let i = lo; i < hi; i++)` loop of `addPoint`. -/
def addPointLoop (points : List Point) (p : Point) (idx : Nat) (hi : Int) :
    Int → List PHull → List T3 → Except String (List PHull × List T3)
  | i, hulls, cells =>
    if h : i < hi then do
      let hull ← getI hulls i
      let (hull', cs) ← addPointHull points p idx hull
      addPointLoop points p idx hi (i + 1) (setI hulls i hull') (cells ++ cs)
    else pure (hulls, cells)
termination_by i => (hi - i).toNat
decreasing_by omega

/-- `addPoint(cells, hulls, points, p, idx)`. -/
def addPoint (cells : List T3) (hulls : List PHull) (points : List Point)
    (p : Point) (idx : Nat) : Except String (List PHull × List T3) := do
  let lo := bsearchLt hulls p testPoint
  let hi := bsearchGt hulls p testPoint
  addPointLoop points p idx hi lo hulls cells

/-- `findSplit(hull, edge)`; `edge.b!` is only dereferenced for edge events,
which always carry `b` (the `getD` default is unreachable from the sweep). -/
def findSplit (hull : PHull) (edge : Event) : Q :=
  let eb := edge.b.getD (Q.zero, Q.zero)
  let d1 :=
    if Q.blt hull.a.1 edge.a.1 then orient2d hull.a hull.b edge.a
    else orient2d eb edge.a hull.a
  if d1.isTruthy then d1 else
  let d2 :=
    if Q.blt eb.1 hull.b.1 then orient2d hull.a hull.b eb
    else orient2d eb edge.a hull.b
  if d2.isTruthy then d2 else Q.ofInt (hull.idx - edge.idx)

/-- `splitHulls(hulls, points, event)`. -/
def splitHulls (hulls : List PHull) (event : Event) : Except String (List PHull) := do
  let splitIdx := bsearchLe hulls event findSplit
  let hull ← getI hulls splitIdx
  match hull.upperIds.getLast?, event.b with
  | some x, some eb =>
    let hull' := { hull with upperIds := [x] }
    let newHull : PHull := ⟨event.a, eb, event.idx, [x], hull.upperIds⟩
    let hulls' := setI hulls splitIdx hull'
    pure (hulls'.take (splitIdx.toNat + 1) ++ [newHull] ++ hulls'.drop (splitIdx.toNat + 1))
  | _, _ => .error "splitHulls: empty upper chain or point event"

/-- `mergeHulls(hulls, points, event)`; the event's `a`/`b` swap is local. -/
def mergeHulls (hulls : List PHull) (event : Event) : Except String (List PHull) := do
  match event.b with
  | none => .error "mergeHulls: point event"
  | some eb =>
    let ev' : Event := { event with a := eb, b := some event.a }
    let mergeIdx := bsearchEq hulls ev' findSplit
    let upper ← getI hulls mergeIdx
    let lower ← getI hulls (mergeIdx - 1)
    let lower' := { lower with upperIds := upper.upperIds }
    pure ((setI hulls (mergeIdx - 1) lower').eraseIdx mergeIdx.toNat)

/-- One step of the event loop of `monotoneTriangulate`. -/
def sweepStep (points : List Point) (st : List PHull × List T3) (event : Event) :
    Except String (List PHull × List T3) := do
  if event.type = 0 then
    let (hulls', cells') ← addPoint st.2 st.1 points event.a event.idx.toNat
    pure (hulls', cells')
  else if event.type = 2 then do
    let hulls' ← splitHulls st.1 event
    pure (hulls', st.2)
  else do
    let hulls' ← mergeHulls st.1 event
    pure (hulls', st.2)

/-- `Math.pow(2, -52)`, the relative epsilon used for the sentinel hull. -/
def eps52 : Q := ⟨1, 2 ^ 52, by norm_num⟩

/-- `monotoneTriangulate(points, edges)`. -/
def monotoneTriangulate (points : List Point) (edges : List Edge) :
    Except String (List T3) := do
  let pointEvents := (List.range points.length).map fun i =>
    { a := points.getD i (Q.zero, Q.zero), b := none, type := 0, idx := (i : Int) : Event }
  let edgeEvents ← (edges.enum.mapM fun (i, e) => do
    let a ← getPoint points e.1
    let b ← getPoint points e.2
    if Q.blt a.1 b.1 then
      pure [{ a := a, b := some b, type := 2, idx := (i : Int) : Event },
            { a := b, b := some a, type := 1, idx := (i : Int) : Event }]
    else if Q.blt b.1 a.1 then
      pure [{ a := b, b := some a, type := 2, idx := (i : Int) : Event },
            { a := a, b := some b, type := 1, idx := (i : Int) : Event }]
    else
      pure ([] : List Event))
  let events := sortByQ compareEvent (pointEvents ++ edgeEvents.flatten)
  match events.head? with
  | none => .error "no events"
  | some e0 =>
    let minX := Q.sub e0.a.1 (Q.mul (Q.add (Q.ofInt 1) (Q.qabs e0.a.1)) eps52)
    let hull0 : PHull := ⟨(minX, Q.ofInt 1), (minX, Q.ofInt 0), -1, [], []⟩
    let (_, cells) ← events.foldlM (sweepStep points) ([hull0], [])
    pure cells

/-- The `y` scan of the seeding loop of `delaunayRefine`: first pair whose
first component is `b` gives its second component, else `-1`. -/
def starScanY (l : Star) (b : Nat) : Int :=
  match l with
  | [] => -1
  | (s, t) :: rest => if s = b then (t : Int) else starScanY rest b

/-- The `x`/`y` scan of the main loop of `delaunayRefine` (last match wins,
`else if` mirrored). -/
def starScanXY (l : Star) (b : Nat) : Int × Int :=
  l.foldl
    (fun xy st =>
      if st.1 = b then (xy.1, (st.2 : Int))
      else if st.2 = b then ((st.1 : Int), xy.2)
      else xy)
    (-1, -1)

/-- Work stacks are lists with the head as the stack top (JS pushes and pops
at the array's end). -/
abbrev EdgeStack : Type := List (Nat × Nat)

/-- `testFlip(points, triangulation, stack, a, b, x)`. -/
def testFlip (points : List Point) (t : Tri) (stack : EdgeStack) (a b x : Nat) :
    Except String EdgeStack := do
  let y ← t.opposite a b
  if y < 0 then pure stack
  else
    let (a', b', x', y') : Nat × Nat × Nat × Nat :=
      if b < a then (b, a, y.toNat, x) else (a, b, x, y.toNat)
    if t.isConstraint a' b' then pure stack
    else do
      let pa ← getPoint points a'
      let pb ← getPoint points b'
      let px ← getPoint points x'
      let py ← getPoint points y'
      if Q.isNeg (inCircle pa pb px py) then pure ((a', b') :: stack)
      else pure stack

/-- The seeding pass of `delaunayRefine` over one vertex's star. -/
def seedStar (points : List Point) (t : Tri) (a : Nat) (star : Star)
    (stack : EdgeStack) : Except String EdgeStack :=
  star.foldlM
    (fun stk st => do
      let x := st.1
      let b := st.2
      if b < a then pure stk
      else if t.isConstraint a b then pure stk
      else
        let y := starScanY star b
        if y < 0 then pure stk
        else do
          let pa ← getPoint points a
          let pb ← getPoint points b
          let px ← getPoint points x
          let py ← getPoint points y.toNat
          if Q.isNeg (inCircle pa pb px py) then pure ((a, b) :: stk)
          else pure stk)
    stack

/-- The flip propagation loop of `delaunayRefine`.  The source loops until
the stack empties; termination is not syntactically evident (the spec notes
the classical flip loop may in principle cycle), so the loop carries fuel
and fuel exhaustion is an error.  The list of edges actually flipped is
returned alongside the final state (most recent first). -/
def refineLoop (points : List Point) :
    Nat → Tri → EdgeStack → List (Nat × Nat) → Except String (Tri × List (Nat × Nat))
  | 0, _, _, _ => .error "refine fuel exhausted"
  | fuel + 1, t, stack, trace =>
    match stack with
    | [] => pure (t, trace)
    | (a, b) :: rest => do
      let star ← getI t.stars a
      let xy := starScanXY star b
      if xy.1 < 0 ∨ xy.2 < 0 then refineLoop points fuel t rest trace
      else do
        let pa ← getPoint points a
        let pb ← getPoint points b
        let px ← getPoint points xy.1.toNat
        let py ← getPoint points xy.2.toNat
        if Q.nonneg (inCircle pa pb px py) then refineLoop points fuel t rest trace
        else do
          let t' ← t.flip a b
          let s1 ← testFlip points t' rest xy.1.toNat a xy.2.toNat
          let s2 ← testFlip points t' s1 a xy.2.toNat xy.1.toNat
          let s3 ← testFlip points t' s2 xy.2.toNat b xy.1.toNat
          let s4 ← testFlip points t' s3 b xy.1.toNat xy.2.toNat
          refineLoop points fuel t' s4 ((a, b) :: trace)

/-- `delaunayRefine(points, triangulation)`. -/
def delaunayRefine (points : List Point) (t : Tri) (fuel : Nat) :
    Except String (Tri × List (Nat × Nat)) := do
  let stack ← (List.range points.length).foldlM
    (fun stk (a : Nat) => do
      let star ← getI t.stars (a : Int)
      seedStar points t a star stk)
    ([] : EdgeStack)
  refineLoop points fuel t stack []

/-- `compareCell`. -/
def compareCell (a b : T3) : Q :=
  let d1 := (a.1 : Int) - (b.1 : Int)
  if d1 ≠ 0 then Q.ofInt d1 else
  let d2 := (a.2.1 : Int) - (b.2.1 : Int)
  if d2 ≠ 0 then Q.ofInt d2 else Q.ofInt ((a.2.2 : Int) - (b.2.2 : Int))

/-- `locateCell(cells, a, b, c)`; `c` can be `-1` from a failed `opposite`
lookup, in which case the rotation puts it first and `-1` is returned. -/
def locateCell (cells : List T3) (a b : Nat) (c : Int) : Int :=
  let x : Int := a
  let y : Int := b
  let z : Int := c
  let r : Int × Int × Int :=
    if y < z then (if y < x then (y, z, x) else (x, y, z))
    else if z < x then (z, x, y) else (x, y, z)
  if r.1 < 0 then -1
  else bsearchEq cells (r.1.toNat, r.2.1.toNat, r.2.2.toNat) compareCell

/-- The in-place canonicalising rotation of `indexCells`. -/
def canonCell (c : T3) : T3 :=
  if c.2.1 < c.2.2 then (if c.2.1 < c.1 then (c.2.1, c.2.2, c.1) else c)
  else if c.2.2 < c.1 then (c.2.2, c.1, c.2.1) else c

def cellVert (c : T3) (j : Nat) : Nat :=
  match j with
  | 0 => c.1
  | 1 => c.2.1
  | _ => c.2.2

/-- The state built by `indexCells`. -/
structure FaceIndex where
  cells : List T3
  neighbor : List Int
  constraint : List Bool
  flags : List Int
  active : List Nat
  next : List Nat

/-- `indexCells(triangulation)`. -/
def indexCells (t : Tri) : Except String FaceIndex := do
  let cells := sortByQ compareCell (t.cells.map canonCell)
  let nc := cells.length
  let st ← (List.range nc).foldlM
    (fun st i =>
      (List.range 3).foldlM
        (fun (st : List Int × List Bool × List Int × List Nat × List Nat) j => do
          let (nb, cst, flags, active, next) := st
          let c := cells.getD i (0, 0, 0)
          let x := cellVert c j
          let y := cellVert c ((j + 1) % 3)
          let opp ← t.opposite y x
          let a := locateCell cells y x opp
          let b := t.isConstraint x y
          if a < 0 then
            if b then pure (nb ++ [a], cst ++ [b], flags, active, i :: next)
            else pure (nb ++ [a], cst ++ [b], flags.set i 1, i :: active, next)
          else pure (nb ++ [a], cst ++ [b], flags, active, next))
        st)
    (([] : List Int), ([] : List Bool), List.replicate nc (0 : Int),
      ([] : List Nat), ([] : List Nat))
  pure ⟨cells, st.1, st.2.1, st.2.2.1, st.2.2.2.1, st.2.2.2.2⟩

/-- The flood-fill loop of `classifyFaces` (one pop per step, fuel for the
non-syntactic termination). -/
def classifyLoop (neighbor : List Int) (constraint : List Bool) :
    Nat → Int → List Nat → List Nat → List Int → Except String (List Int)
  | 0, _, _, _, _ => .error "classify fuel exhausted"
  | fuel + 1, side, active, next, flags =>
    match active with
    | [] =>
      match next with
      | [] => pure flags
      | _ => classifyLoop neighbor constraint fuel (-side) next [] flags
    | t :: rest =>
      if flags.get? t = some (-side) then
        classifyLoop neighbor constraint fuel side rest next flags
      else
        let flags1 := flags.set t side
        let st :=
          (List.range 3).foldl
            (fun (st : List Nat × List Nat × List Int) j =>
              let (act, nxt, flg) := st
              let f := neighbor.getD (3 * t + j) (-1)
              if 0 ≤ f ∧ flg.get? f.toNat = some 0 then
                if constraint.getD (3 * t + j) false then (act, f.toNat :: nxt, flg)
                else (f.toNat :: act, nxt, flg.set f.toNat side)
              else (act, nxt, flg))
            (rest, next, flags1)
        classifyLoop neighbor constraint fuel side st.1 st.2.1 st.2.2

/-- `classifyFaces(triangulation, target)`. -/
def classifyFaces (t : Tri) (target : Int) (fuel : Nat) : Except String (List T3) := do
  let index ← indexCells t
  if target = 0 then pure index.cells
  else do
    let flags ← classifyLoop index.neighbor index.constraint fuel 1
      index.active index.next index.flags
    pure ((index.cells.enum.filter fun ic => flags.getD ic.1 0 = target).map (·.2))

/-- `canonicalizeEdge(e)`. -/
def canonicalizeEdge (e : Edge) : Edge := (min e.1 e.2, max e.1 e.2)

/-- `canonicalizeEdges(edges)`: map to canonical order on a fresh list and
sort it. -/
def canonicalizeEdges (edges : List Edge) : List Edge :=
  sortByQ compareLex (edges.map canonicalizeEdge)

/-- The `CDTOptions` record after the `!== false` defaulting of `cdt2d`
(an absent field reads as `true`). -/
structure CDTOpts where
  delaunay : Bool := true
  interior : Bool := true
  exterior : Bool := true

/-- `cdt2d(points, edges, options)`.  `fuel` bounds the two worklist loops;
a JS run that terminates normally is an `.ok` run for every sufficiently
large fuel. -/
def cdt2d (points : List Point) (edges : List Edge) (opts : CDTOpts) (fuel : Nat) :
    Except String (List T3) := do
  if (opts.interior = false ∧ opts.exterior = false) ∨ points.length = 0 then pure []
  else do
    let cells ← monotoneTriangulate points edges
    if opts.delaunay = true ∨ opts.interior ≠ opts.exterior then do
      let t0 := Tri.make points.length (canonicalizeEdges edges)
      let t1 ← cells.foldlM (fun t f => t.addTriangle f.1 f.2.1 f.2.2) t0
      let t2 ←
        if opts.delaunay = true then do
          let r ← delaunayRefine points t1 fuel
          pure r.1
        else pure t1
      if opts.exterior = false then classifyFaces t2 (-1) fuel
      else if opts.interior = false then classifyFaces t2 1 fuel
      else pure t2.cells
    else pure cells

/-- The crossing test of one loop iteration of `pointInPolygon`
(`vi = polygon[i]`, `vj = polygon[j]`). -/
def crossesB (p : Point) (vi vj : Point) : Bool :=
  (Q.blt p.2 vi.2 ≠ Q.blt p.2 vj.2) &&
    Q.blt p.1
      (Q.add (Q.div (Q.mul (Q.sub vj.1 vi.1) (Q.sub p.2 vi.2)) (Q.sub vj.2 vi.2)) vi.1)

/-- `pointInPolygon(point, polygon)`: the loop pairs `polygon[i]` with its
cyclic predecessor `polygon[j]` for `i = 0, …, n-1` and toggles `inside`
on each crossing, i.e. it folds the toggle over exactly the pairs
`zip polygon (polygon.rotate (n-1))`. -/
def pointInPolygon (point : Point) (polygon : List Point) : Bool :=
  (polygon.zip (polygon.rotate (polygon.length - 1))).foldl
    (fun inside vv => if crossesB point vv.1 vv.2 then !inside else inside) false

/-- `triangleCentroid(points, tri)`. -/
def triangleCentroid (points : List Point) (tri : T3) : Except String Point := do
  let a ← getPoint points tri.1
  let b ← getPoint points tri.2.1
  let c ← getPoint points tri.2.2
  pure (Q.div (Q.add (Q.add a.1 b.1) c.1) (Q.ofInt 3),
        Q.div (Q.add (Q.add a.2 b.2) c.2) (Q.ofInt 3))

/-- Effectful `Array.prototype.filter`: evaluate the predicate on each
element in order, keep the elements answering `true`, in order. -/
def filterME {α : Type} (p : α → Except String Bool) : List α → Except String (List α)
  | [] => pure []
  | x :: xs => do
    let b ← p x
    let rest ← filterME p xs
    pure (if b then x :: rest else rest)

/-- `filterTriangles(points, triangles, boundary, holes)`. -/
def filterTriangles (points : List Point) (triangles : List T3)
    (boundary : List Point) (holes : List (List Point)) : Except String (List T3) :=
  filterME (fun tri => do
    let centroid ← triangleCentroid points tri
    if pointInPolygon centroid boundary = false then pure false
    else if holes.any fun hole => pointInPolygon centroid hole then pure false
    else pure true) triangles

/-- Concrete unit-square instance used to exercise `delaunayRefine`: four
corner points and the triangulation made of the two triangles on either side
of the constrained diagonal `(0, 2)`. -/
def witP : List Point :=
  [(Q.ofInt 0, Q.ofInt 0), (Q.ofInt 1, Q.ofInt 0),
   (Q.ofInt 1, Q.ofInt 1), (Q.ofInt 0, Q.ofInt 1)]

/-- The star structure produced by inserting triangles `(0,1,2)` and `(0,2,3)`
into `Tri.make 4 [(0, 2)]`: the square split along the constrained
diagonal `(0, 2)`. -/
def witT : Tri :=
  ⟨[[(1, 2), (2, 3)], [(2, 0)], [(0, 1), (3, 0)], [(0, 2)]], [(0, 2)]⟩

/-! ## Theorems: value semantics of `Q` -/

theorem Q.den_ne (a : Q) : (a.den : ℚ) ≠ 0 := by
  exact_mod_cast Int.ne_of_gt a.dpos

theorem Q.den_pos (a : Q) : (0 : ℚ) < (a.den : ℚ) := by
  exact_mod_cast a.dpos

@[simp] theorem Q.toRat_ofInt (n : Int) : toRat (ofInt n) = (n : ℚ) := by
  simp [toRat, ofInt]

@[simp] theorem Q.toRat_zero : toRat zero = 0 := by
  simp [zero]

@[simp] theorem Q.toRat_add (a b : Q) : toRat (add a b) = toRat a + toRat b := by
  simp only [toRat, add]
  rw [div_add_div _ _ (den_ne a) (den_ne b)]
  push_cast
  ring_nf

@[simp] theorem Q.toRat_sub (a b : Q) : toRat (sub a b) = toRat a - toRat b := by
  simp only [toRat, sub]
  rw [div_sub_div _ _ (den_ne a) (den_ne b)]
  push_cast
  ring_nf

@[simp] theorem Q.toRat_mul (a b : Q) : toRat (mul a b) = toRat a * toRat b := by
  simp only [toRat, mul]
  push_cast
  rw [div_mul_div_comm]

@[simp] theorem Q.toRat_neg (a : Q) : toRat (neg a) = -toRat a := by
  simp [toRat, neg, neg_div]

@[simp] theorem Q.toRat_qabs (a : Q) : toRat (qabs a) = |toRat a| := by
  simp only [toRat, qabs]
  rw [abs_div, abs_of_pos (den_pos a)]
  push_cast
  rfl

theorem Q.toRat_num_zero {a : Q} : toRat a = 0 ↔ a.num = 0 := by
  constructor
  · intro h
    have := (div_eq_zero_iff.mp h).resolve_right (den_ne a)
    exact_mod_cast this
  · intro h
    simp [toRat, h]

theorem Q.toRat_div (a b : Q) (hb : toRat b ≠ 0) :
    toRat (div a b) = toRat a / toRat b := by
  have hb' : b.num ≠ 0 := fun h => hb (toRat_num_zero.mpr h)
  unfold div
  rcases lt_trichotomy b.num 0 with h | h | h
  · rw [dif_neg (by omega), dif_pos h]
    have hbn : (b.num : ℚ) ≠ 0 := by exact_mod_cast hb'
    simp only [toRat]
    push_cast
    field_simp
  · exact absurd h hb'
  · rw [dif_pos h]
    have hbn : (b.num : ℚ) ≠ 0 := by exact_mod_cast hb'
    simp only [toRat]
    push_cast
    field_simp

theorem Q.blt_iff (a b : Q) : blt a b = true ↔ toRat a < toRat b := by
  simp only [blt, toRat, decide_eq_true_eq]
  rw [div_lt_div_iff₀ (den_pos a) (den_pos b)]
  constructor
  · intro h; exact_mod_cast h
  · intro h; exact_mod_cast h

theorem Q.ble_iff (a b : Q) : ble a b = true ↔ toRat a ≤ toRat b := by
  simp only [ble, toRat, decide_eq_true_eq]
  rw [div_le_div_iff₀ (den_pos a) (den_pos b)]
  constructor
  · intro h; exact_mod_cast h
  · intro h; exact_mod_cast h

theorem Q.beq_iff (a b : Q) : beq a b = true ↔ toRat a = toRat b := by
  simp only [beq, toRat, decide_eq_true_eq]
  rw [div_eq_div_iff (den_ne a) (den_ne b)]
  constructor
  · intro h; exact_mod_cast h
  · intro h; exact_mod_cast h

theorem Q.isTruthy_iff (a : Q) : isTruthy a = true ↔ toRat a ≠ 0 := by
  simp only [isTruthy, decide_eq_true_eq]
  exact not_iff_not.mpr toRat_num_zero.symm

theorem Q.pos_iff (a : Q) : pos a = true ↔ 0 < toRat a := by
  simp only [pos, decide_eq_true_eq, toRat]
  rw [lt_div_iff₀ (den_pos a), zero_mul]
  constructor
  · intro h; exact_mod_cast h
  · intro h; exact_mod_cast h

theorem Q.isNeg_iff (a : Q) : isNeg a = true ↔ toRat a < 0 := by
  simp only [isNeg, decide_eq_true_eq, toRat]
  rw [div_lt_iff₀ (den_pos a), zero_mul]
  constructor
  · intro h; exact_mod_cast h
  · intro h; exact_mod_cast h

theorem Q.nonneg_iff (a : Q) : nonneg a = true ↔ 0 ≤ toRat a := by
  simp only [nonneg, decide_eq_true_eq, toRat]
  rw [le_div_iff₀ (den_pos a), zero_mul]
  constructor
  · intro h; exact_mod_cast h
  · intro h; exact_mod_cast h

theorem Q.not_pos_iff (a : Q) : pos a = false ↔ toRat a ≤ 0 := by
  rw [← Bool.not_eq_true, not_iff_comm, pos_iff, not_le]

theorem Q.not_isNeg_iff (a : Q) : isNeg a = false ↔ 0 ≤ toRat a := by
  rw [← Bool.not_eq_true, not_iff_comm, isNeg_iff, not_le]


/-! ### Geometric meaning of `orient2d` (claim C2)

`signedArea` is the spec-side notion ("counter-clockwise" = signed area of
the triangle strictly positive), written from the spec's words, to be
compared with the source's `orient2d`. -/

/-- Half the cross product `(b - a) × (c - a)`: the standard signed area of
triangle `a b c`, positive exactly for counter-clockwise order. -/
def signedArea (a b c : ℚ × ℚ) : ℚ :=
  ((b.1 - a.1) * (c.2 - a.2) - (c.1 - a.1) * (b.2 - a.2)) / 2

def toRatPt (p : Point) : ℚ × ℚ := (Q.toRat p.1, Q.toRat p.2)

theorem orient2d_eq_neg_twice_area (a b c : Point) :
    Q.toRat (orient2d a b c) = -2 * signedArea (toRatPt a) (toRatPt b) (toRatPt c) := by
  simp only [orient2d, signedArea, toRatPt, Q.toRat_sub, Q.toRat_mul]
  ring

/-- Claim C2, counterexample: for `a = (0,0)`, `b = (1,0)`, `c = (0,1)` —
a counter-clockwise triple with signed area `1/2` — `orient2d` is `-1`,
not positive, so "strictly positive iff counter-clockwise (signed area
strictly positive)" is false of the code. -/
theorem orient2d_ccw_counterexample :
    ¬ (0 < Q.toRat (orient2d (Q.ofInt 0, Q.ofInt 0) (Q.ofInt 1, Q.ofInt 0)
          (Q.ofInt 0, Q.ofInt 1)) ↔
        0 < signedArea (0, 0) (1, 0) (0, 1)) := by
  have h1 : Q.toRat (orient2d (Q.ofInt 0, Q.ofInt 0) (Q.ofInt 1, Q.ofInt 0)
      (Q.ofInt 0, Q.ofInt 1)) = -1 := by
    norm_num [orient2d, Q.sub, Q.mul, Q.ofInt, Q.toRat]
  have h2 : signedArea ((0 : ℚ), (0 : ℚ)) (1, 0) (0, 1) = 1 / 2 := by
    norm_num [signedArea]
  rw [h1, h2]
  norm_num

/-- Claim C2 (amended): `orient2d(a,b,c)` computes exactly
`(a.y - c.y)·(b.x - c.x) - (a.x - c.x)·(b.y - c.y)`, and this value is
strictly positive iff `a, b, c` are in clockwise order (signed area
strictly negative), strictly negative iff counter-clockwise, and zero iff
collinear — the opposite of the claimed sign convention. -/
theorem orient2d_formula_and_sign (a b c : Point) :
    Q.toRat (orient2d a b c) =
      (Q.toRat a.2 - Q.toRat c.2) * (Q.toRat b.1 - Q.toRat c.1) -
        (Q.toRat a.1 - Q.toRat c.1) * (Q.toRat b.2 - Q.toRat c.2) ∧
    (0 < Q.toRat (orient2d a b c) ↔
      signedArea (toRatPt a) (toRatPt b) (toRatPt c) < 0) ∧
    (Q.toRat (orient2d a b c) < 0 ↔
      0 < signedArea (toRatPt a) (toRatPt b) (toRatPt c)) ∧
    (Q.toRat (orient2d a b c) = 0 ↔
      signedArea (toRatPt a) (toRatPt b) (toRatPt c) = 0) := by
  have h := orient2d_eq_neg_twice_area a b c
  refine ⟨?_, ?_, ?_, ?_⟩
  · simp only [orient2d, Q.toRat_sub, Q.toRat_mul]
  · rw [h]; constructor <;> intro hh <;> nlinarith
  · rw [h]; constructor <;> intro hh <;> nlinarith
  · rw [h]; constructor <;> intro hh <;> nlinarith

/-- Claim C5: `cdt2d` returns the empty triangle list, without failure and
without reaching the sweep, refinement or classification stages (the result
does not depend on the worklist fuel), whenever the point list is empty or
both `interior` and `exterior` are disabled. -/
theorem cdt2d_fast_path (points : List Point) (edges : List Edge) (opts : CDTOpts)
    (fuel : Nat) (h : points = [] ∨ (opts.interior = false ∧ opts.exterior = false)) :
    cdt2d points edges opts fuel = .ok [] := by
  unfold cdt2d
  rcases h with h | h
  · subst h; simp [pure, Except.pure]
  · simp [h.1, h.2, pure, Except.pure]

theorem cdt2d_fast_path_witness :
    cdt2d [] [(0, 1)] {} 5 = .ok [] ∧
    cdt2d [(Q.ofInt 0, Q.ofInt 0), (Q.ofInt 1, Q.ofInt 0)] []
      { interior := false, exterior := false } 5 = .ok [] :=
  ⟨cdt2d_fast_path [] [(0, 1)] {} 5 (Or.inl rfl),
   cdt2d_fast_path _ [] _ 5 (Or.inr ⟨rfl, rfl⟩)⟩

/-- Claim C9: every triple `[i, s, t]` emitted by `cells()` has its first
component strictly smaller than both others, for every state of the stars
array. -/
theorem cells_min_first (stars : List Star) (t : T3) (ht : t ∈ cellsOf stars) :
    t.1 < t.2.1 ∧ t.1 < t.2.2 := by
  unfold cellsOf at ht
  simp only [List.mem_flatMap, List.mem_filterMap] at ht
  obtain ⟨i, -, st, -, hf⟩ := ht
  by_cases hc : i < min st.1 st.2
  · rw [if_pos hc] at hf
    cases hf
    exact ⟨lt_of_lt_of_le hc (min_le_left _ _), lt_of_lt_of_le hc (min_le_right _ _)⟩
  · rw [if_neg hc] at hf; cases hf

theorem cells_min_first_witness :
    ((0, 1, 2) : T3) ∈ cellsOf [[(1, 2)]] ∧ (0 : Nat) < 1 ∧ (0 : Nat) < 2 := by
  have hm : ((0, 1, 2) : T3) ∈ cellsOf [[(1, 2)]] := by decide
  exact ⟨hm, (cells_min_first [[(1, 2)]] (0, 1, 2) hm).1,
    (cells_min_first [[(1, 2)]] (0, 1, 2) hm).2⟩

theorem all_not_eq_not_any (holes : List (List Point)) (c : Point) :
    (holes.all fun hole => !pointInPolygon c hole) =
      !holes.any fun hole => pointInPolygon c hole := by
  induction holes with
  | nil => rfl
  | cons h t ih => simp [List.all_cons, List.any_cons, ih]

theorem exceptBind_ok {α β : Type} (x : Except String α) (f : α → Except String β)
    (r : β) : (x >>= f) = .ok r ↔ ∃ a, x = .ok a ∧ f a = .ok r := by
  cases x with
  | error e => simp [Bind.bind, Except.bind]
  | ok a => simp [Bind.bind, Except.bind]

theorem exceptPure_ok {α : Type} (a : α) (r : α) :
    (pure a : Except String α) = .ok r ↔ a = r := by
  constructor
  · intro h; exact Except.ok.inj h
  · intro h; rw [h]; rfl

theorem filterME_cons {α : Type} (p : α → Except String Bool) (x : α) (xs : List α)
    (res : List α) :
    filterME p (x :: xs) = .ok res ↔
      ∃ b rest, p x = .ok b ∧ filterME p xs = .ok rest ∧
        res = if b then x :: rest else rest := by
  show ((p x) >>= fun b => filterME p xs >>= fun rest =>
    pure (if b then x :: rest else rest)) = .ok res ↔ _
  rw [exceptBind_ok]
  constructor
  · rintro ⟨b, hb, hrest⟩
    rw [exceptBind_ok] at hrest
    obtain ⟨rest, hr, hp⟩ := hrest
    rw [exceptPure_ok] at hp
    exact ⟨b, rest, hb, hr, hp.symm⟩
  · rintro ⟨b, rest, hb, hr, hres⟩
    exact ⟨b, hb, by rw [exceptBind_ok]; exact ⟨rest, hr, by rw [exceptPure_ok, hres]⟩⟩

theorem filterME_ok_filter {α : Type} (p : α → Except String Bool) (q : α → Bool)
    (hpq : ∀ (a : α) (b : Bool), p a = .ok b → b = q a) :
    ∀ (l res : List α), filterME p l = .ok res → res = l.filter q := by
  intro l
  induction l with
  | nil =>
    intro res h
    have : ([] : List α) = res := (exceptPure_ok _ _).mp h
    rw [← this]; rfl
  | cons x xs ih =>
    intro res h
    rw [filterME_cons] at h
    obtain ⟨b, rest, hb, hrest, hres⟩ := h
    rw [hpq x b hb] at hres
    rw [hres, ih rest hrest, List.filter_cons]

/-- Claim C8: `filterTriangles` returns exactly those input triangles, in
input order, whose centroid lies inside the boundary ring and outside
every hole ring. -/
theorem filterTriangles_spec (points : List Point) (triangles : List T3)
    (boundary : List Point) (holes : List (List Point)) (res : List T3)
    (h : filterTriangles points triangles boundary holes = .ok res) :
    res = triangles.filter fun tri =>
      match triangleCentroid points tri with
      | .ok c => pointInPolygon c boundary &&
          (holes.all fun hole => !pointInPolygon c hole)
      | .error _ => false := by
  refine filterME_ok_filter _ _ ?_ triangles res h
  intro tri b hb
  cases hc : triangleCentroid points tri with
  | error e =>
    exact absurd hb (by rw [hc]; simp [Bind.bind, Except.bind])
  | ok c =>
    rw [hc] at hb
    have hb' : (if pointInPolygon c boundary = false then pure false
        else if holes.any fun hole => pointInPolygon c hole then pure false
        else pure true : Except String Bool) = .ok b := hb
    split_ifs at hb' with h1 h2
    · have hbf := (exceptPure_ok _ _).mp hb'
      simp [← hbf, h1]
    · have hbf := (exceptPure_ok _ _).mp hb'
      simp [← hbf, all_not_eq_not_any, h2]
    · have hbf := (exceptPure_ok _ _).mp hb'
      have hbo : pointInPolygon c boundary = true := by
        cases hx : pointInPolygon c boundary
        · exact absurd hx h1
        · rfl
      have hany : (holes.any fun hole => pointInPolygon c hole) = false := by
        cases hx : holes.any fun hole => pointInPolygon c hole
        · rfl
        · exact absurd hx h2
      simp [← hbf, hbo, all_not_eq_not_any, hany]

theorem filterTriangles_spec_witness :
    [((0, 1, 2) : T3)] =
      [((0, 1, 2) : T3)].filter fun tri =>
        match triangleCentroid
            [(Q.ofInt 0, Q.ofInt 0), (Q.ofInt 3, Q.ofInt 0), (Q.ofInt 0, Q.ofInt 3)] tri with
        | .ok c =>
          pointInPolygon c
              [(Q.ofInt (-9), Q.ofInt (-9)), (Q.ofInt 9, Q.ofInt (-9)),
                (Q.ofInt 9, Q.ofInt 9), (Q.ofInt (-9), Q.ofInt 9)] &&
            ([[(Q.ofInt 4, Q.ofInt 4), (Q.ofInt 5, Q.ofInt 4), (Q.ofInt 5, Q.ofInt 5),
                (Q.ofInt 4, Q.ofInt 5)]].all fun hole => !pointInPolygon c hole)
        | .error _ => false :=
  filterTriangles_spec
    [(Q.ofInt 0, Q.ofInt 0), (Q.ofInt 3, Q.ofInt 0), (Q.ofInt 0, Q.ofInt 3)]
    [(0, 1, 2)]
    [(Q.ofInt (-9), Q.ofInt (-9)), (Q.ofInt 9, Q.ofInt (-9)),
      (Q.ofInt 9, Q.ofInt 9), (Q.ofInt (-9), Q.ofInt 9)]
    [[(Q.ofInt 4, Q.ofInt 4), (Q.ofInt 5, Q.ofInt 4), (Q.ofInt 5, Q.ofInt 5),
      (Q.ofInt 4, Q.ofInt 5)]]
    [(0, 1, 2)] rfl

theorem bsearchGeAux_stopped {α β : Type} (a : List α) (y : β) (c : α → β → Q)
    (l h i : Int) (hlh : ¬ l ≤ h)
    (hA : ∀ (k : Nat) (hk : k < a.length), (k : Int) < l →
      Q.nonneg (c (a.get ⟨k, hk⟩) y) = false)
    (hC : ∀ (k : Nat) (hk : k < a.length), h < (k : Int) → (k : Int) < i →
      Q.nonneg (c (a.get ⟨k, hk⟩) y) = false)
    (hB : i = (a.length : Int) ∨ (0 ≤ i ∧ i < (a.length : Int) ∧
      ∀ hi : i.toNat < a.length, Q.nonneg (c (a.get ⟨i.toNat, hi⟩) y) = true)) :
    ∃ r : Nat, bsearchGeAux a y c l h i = (r : Int) ∧ r ≤ a.length ∧
      (∀ (k : Nat) (hk : k < a.length), k < r →
        Q.nonneg (c (a.get ⟨k, hk⟩) y) = false) ∧
      (∀ hr : r < a.length, Q.nonneg (c (a.get ⟨r, hr⟩) y) = true) := by
  have hres : bsearchGeAux a y c l h i = i := by
    rw [bsearchGeAux]
    exact dif_neg hlh
  rcases hB with hB | ⟨hB0, hBlen, hBval⟩
  · refine ⟨a.length, by rw [hres, hB], le_refl _, ?_, ?_⟩
    · intro k hk _
      by_cases hkl : (k : Int) < l
      · exact hA k hk hkl
      · exact hC k hk (by omega) (by omega)
    · intro hr; omega
  · refine ⟨i.toNat, by rw [hres]; omega, by omega, ?_, ?_⟩
    · intro k hk hki
      by_cases hkl : (k : Int) < l
      · exact hA k hk hkl
      · exact hC k hk (by omega) (by omega)
    · intro hr; exact hBval hr

theorem bsearchGeAux_spec {α β : Type} (a : List α) (y : β) (c : α → β → Q)
    (hmono : ∀ (j k : Nat) (hj : j < a.length) (hk : k < a.length), j ≤ k →
      Q.nonneg (c (a.get ⟨j, hj⟩) y) = true → Q.nonneg (c (a.get ⟨k, hk⟩) y) = true) :
    ∀ (fuel : Nat) (l h i : Int),
      (h + 1 - l).toNat ≤ fuel →
      0 ≤ l → h < (a.length : Int) →
      (∀ (k : Nat) (hk : k < a.length), (k : Int) < l →
        Q.nonneg (c (a.get ⟨k, hk⟩) y) = false) →
      (∀ (k : Nat) (hk : k < a.length), h < (k : Int) → (k : Int) < i →
        Q.nonneg (c (a.get ⟨k, hk⟩) y) = false) →
      (i = (a.length : Int) ∨ (0 ≤ i ∧ i < (a.length : Int) ∧
        ∀ hi : i.toNat < a.length, Q.nonneg (c (a.get ⟨i.toNat, hi⟩) y) = true)) →
      ∃ r : Nat, bsearchGeAux a y c l h i = (r : Int) ∧ r ≤ a.length ∧
        (∀ (k : Nat) (hk : k < a.length), k < r →
          Q.nonneg (c (a.get ⟨k, hk⟩) y) = false) ∧
        (∀ hr : r < a.length, Q.nonneg (c (a.get ⟨r, hr⟩) y) = true) := by
  intro fuel
  induction fuel with
  | zero =>
    intro l h i hm hl hh hA hC hB
    exact bsearchGeAux_stopped a y c l h i (by omega) hA hC hB
  | succ fuel ih =>
    intro l h i hm hl hh hA hC hB
    by_cases hlh : l ≤ h
    · have hm0 : 0 ≤ (l + h) / 2 := by omega
      have hmh : (l + h) / 2 ≤ h := by omega
      have hml : l ≤ (l + h) / 2 := by omega
      have hmlen : ((l + h) / 2).toNat < a.length := by omega
      have hget : a.get? ((l + h) / 2).toNat = some (a.get ⟨((l + h) / 2).toNat, hmlen⟩) :=
        List.get?_eq_get hmlen
      rw [bsearchGeAux, dif_pos hlh]
      simp only [hget]
      by_cases hnn : Q.nonneg (c (a.get ⟨((l + h) / 2).toNat, hmlen⟩) y) = true
      · rw [if_pos hnn]
        refine ih l ((l + h) / 2 - 1) ((l + h) / 2) (by omega) hl (by omega) hA ?_ ?_
        · intro k hk h1 h2; omega
        · right
          refine ⟨by omega, by omega, ?_⟩
          intro hi
          exact hnn
      · rw [if_neg hnn]
        refine ih ((l + h) / 2 + 1) h i (by omega) (by omega) hh ?_ hC hB
        intro k hk hkm
        by_cases hkl : (k : Int) < l
        · exact hA k hk hkl
        · cases hy : Q.nonneg (c (a.get ⟨k, hk⟩) y) with
          | false => rfl
          | true =>
            exact absurd (hmono k ((l + h) / 2).toNat hk hmlen (by omega) hy) hnn
    · exact bsearchGeAux_stopped a y c l h i hlh hA hC hB

/-- Claim C6: on an array sorted in non-decreasing order with respect to the
comparator (formalised as: once the comparison against `y` is `≥ 0` at some
index it stays `≥ 0` at later indices), `bsearchGe(a, y, c)` returns the
smallest index whose comparison against the query is `≥ 0`, and `a.length`
when no such index exists. -/
theorem bsearchGe_spec {α β : Type} (a : List α) (y : β) (c : α → β → Q)
    (hmono : ∀ (j k : Nat) (hj : j < a.length) (hk : k < a.length), j ≤ k →
      Q.nonneg (c (a.get ⟨j, hj⟩) y) = true → Q.nonneg (c (a.get ⟨k, hk⟩) y) = true) :
    ∃ r : Nat, bsearchGe a y c = (r : Int) ∧ r ≤ a.length ∧
      (∀ (k : Nat) (hk : k < a.length), k < r →
        Q.nonneg (c (a.get ⟨k, hk⟩) y) = false) ∧
      (∀ hr : r < a.length, Q.nonneg (c (a.get ⟨r, hr⟩) y) = true) := by
  unfold bsearchGe
  refine bsearchGeAux_spec a y c hmono ((a.length : Int) - 1 + 1 - 0).toNat 0
    ((a.length : Int) - 1) (a.length : Int) (le_refl _) (by omega) (by omega) ?_ ?_ ?_
  · intro k hk hkl; omega
  · intro k hk h1 h2; omega
  · left; rfl

theorem bsearchGe_spec_witness :
    ∃ r : Nat, bsearchGe [(0, 5), (0, 7), (2, 3)] ((0, 6) : Edge) compareLex = (r : Int) ∧
      r ≤ 3 ∧
      (∀ (k : Nat) (hk : k < ([(0, 5), (0, 7), (2, 3)] : List Edge).length), k < r →
        Q.nonneg (compareLex (([(0, 5), (0, 7), (2, 3)] : List Edge).get ⟨k, hk⟩) (0, 6)) =
          false) ∧
      (∀ hr : r < ([(0, 5), (0, 7), (2, 3)] : List Edge).length,
        Q.nonneg (compareLex (([(0, 5), (0, 7), (2, 3)] : List Edge).get ⟨r, hr⟩) (0, 6)) =
          true) :=
  bsearchGe_spec [(0, 5), (0, 7), (2, 3)] (0, 6) compareLex (by
    intro j k hj hk
    have hj3 : j < 3 := hj
    have hk3 : k < 3 := hk
    interval_cases j <;> interval_cases k <;> revert hj hk <;> decide)

theorem foldl_toggle {γ : Type} (q : γ → Bool) :
    ∀ (l : List γ) (b : Bool),
      l.foldl (fun ins e => if q e then !ins else ins) b =
        xor (decide (Odd (l.countP q))) b := by
  intro l
  induction l with
  | nil => intro b; simp
  | cons x xs ih =>
    intro b
    rw [List.foldl_cons, ih, List.countP_cons]
    by_cases hq : q x
    · simp only [if_pos hq, hq, if_true, Nat.odd_add_one, decide_not]
      cases decide (Odd (List.countP q xs)) <;> cases b <;> rfl
    · simp [hq]

theorem pip_eq_parity (p : Point) (poly : List Point) :
    pointInPolygon p poly =
      decide (Odd ((poly.zip (poly.rotate (poly.length - 1))).countP
        fun vv => crossesB p vv.1 vv.2)) := by
  unfold pointInPolygon
  rw [foldl_toggle]
  simp

theorem zip_rotate {γ δ : Type} (l1 : List γ) (l2 : List δ) (h : l1.length = l2.length)
    (k : ℕ) : (l1.rotate k).zip (l2.rotate k) = (l1.zip l2).rotate k := by
  apply List.ext_getElem
  · simp [h]
  · intro n h1 h2
    have hz : (l1.zip l2).length = l1.length := by simp [h]
    simp only [List.getElem_zip, List.getElem_rotate, hz, h]

theorem countP_rotate {γ : Type} (q : γ → Bool) (l : List γ) (k : ℕ) :
    (l.rotate k).countP q = l.countP q :=
  (List.rotate_perm l k).countP_eq q

/-- The cyclic `(current, previous)` edge pairing of the reversed ring is a
rotation of the reversed, component-swapped edge pairing of the ring. -/
theorem edges_reverse (l : List Point) :
    l.reverse.zip (l.reverse.rotate (l.length - 1)) =
      ((l.zip (l.rotate (l.length - 1))).map Prod.swap).reverse.rotate (l.length - 1) := by
  rcases Nat.eq_zero_or_pos l.length with hn | hn
  · rw [List.length_eq_zero] at hn
    subst hn; rfl
  apply List.ext_getElem
  · simp
  · intro j hj1 hj2
    have hjn : j < l.length := by simpa using hj1
    have hz : (l.zip (l.rotate (l.length - 1))).length = l.length := by simp
    have hm : (j + (l.length - 1)) % l.length = if j = 0 then l.length - 1 else j - 1 := by
      by_cases hj0 : j = 0
      · subst hj0
        simp [Nat.mod_eq_of_lt (by omega : l.length - 1 < l.length)]
      · have : j + (l.length - 1) = (j - 1) + l.length := by omega
        rw [if_neg hj0, this, Nat.add_mod_right, Nat.mod_eq_of_lt (by omega)]
    simp only [List.getElem_zip, List.getElem_rotate, List.getElem_reverse,
      List.getElem_map, List.length_reverse, List.length_map, List.length_zip,
      List.length_rotate, hz, Prod.swap]
    have hidx : l.length - 1 - j =
        (l.length - 1 - (j + (l.length - 1)) % l.length + (l.length - 1)) % l.length := by
      rw [hm]
      by_cases hj0 : j = 0
      · rw [if_pos hj0, hj0, Nat.sub_self, Nat.zero_add,
          Nat.mod_eq_of_lt (by omega : l.length - 1 < l.length)]
        omega
      · rw [if_neg hj0]
        have h1 : l.length - 1 - (j - 1) = l.length - j := by omega
        have h2 : l.length - j + (l.length - 1) = (l.length - 1 - j) + l.length := by omega
        rw [h1, h2, Nat.add_mod_right, Nat.mod_eq_of_lt (by omega)]
    simp only [Prod.mk.injEq]
    refine ⟨?_, trivial⟩
    congr 1


theorem crossesB_symm (p u v : Point) : crossesB p u v = crossesB p v u := by
  unfold crossesB
  by_cases h1 : Q.blt p.2 u.2 = Q.blt p.2 v.2
  · simp [h1]
  · have h1' : ¬ Q.blt p.2 v.2 = Q.blt p.2 u.2 := fun hh => h1 hh.symm
    simp only [ne_eq, h1, h1', not_false_eq_true, decide_True, Bool.true_and]
    have hne : Q.toRat v.2 - Q.toRat u.2 ≠ 0 := by
      intro hz
      apply h1
      have heq : Q.toRat p.2 < Q.toRat u.2 ↔ Q.toRat p.2 < Q.toRat v.2 := by
        constructor <;> intro hh <;> linarith
      rw [Bool.eq_iff_iff, Q.blt_iff, Q.blt_iff]
      exact heq
    have hne' : Q.toRat (Q.sub v.2 u.2) ≠ 0 := by
      rw [Q.toRat_sub]; exact hne
    have hne'' : Q.toRat (Q.sub u.2 v.2) ≠ 0 := by
      rw [Q.toRat_sub]; intro hz; apply hne; linarith
    have hval : Q.toRat (Q.add (Q.div (Q.mul (Q.sub v.1 u.1) (Q.sub p.2 u.2))
          (Q.sub v.2 u.2)) u.1) =
        Q.toRat (Q.add (Q.div (Q.mul (Q.sub u.1 v.1) (Q.sub p.2 v.2))
          (Q.sub u.2 v.2)) v.1) := by
      rw [Q.toRat_add, Q.toRat_add, Q.toRat_div _ _ hne', Q.toRat_div _ _ hne'']
      rw [Q.toRat_mul, Q.toRat_mul, Q.toRat_sub, Q.toRat_sub, Q.toRat_sub,
        Q.toRat_sub, Q.toRat_sub, Q.toRat_sub]
      have hd : Q.toRat u.2 - Q.toRat v.2 ≠ 0 := fun hz => hne (by linarith)
      field_simp
      ring
    rw [Bool.eq_iff_iff, Q.blt_iff, Q.blt_iff, hval]

/-- Claim C7: `pointInPolygon` returns the same boolean when the polygon
ring is replaced by any cyclic rotation of its vertex list, and the same
boolean when it is replaced by its reversal (opposite winding order). -/
theorem pointInPolygon_rotation_reversal (p : Point) (poly : List Point) (k : Nat) :
    pointInPolygon p (poly.rotate k) = pointInPolygon p poly ∧
    pointInPolygon p poly.reverse = pointInPolygon p poly := by
  constructor
  · rw [pip_eq_parity, pip_eq_parity]
    rw [List.length_rotate, List.rotate_rotate, Nat.add_comm k (poly.length - 1),
      ← List.rotate_rotate,
      zip_rotate poly (poly.rotate (poly.length - 1)) (by simp) k, countP_rotate]
  · rw [pip_eq_parity, pip_eq_parity]
    rw [List.length_reverse, edges_reverse, countP_rotate,
      (List.reverse_perm _).countP_eq, List.countP_map]
    have hpt : ∀ vv : Point × Point,
        ((fun vv : Point × Point => crossesB p vv.1 vv.2) ∘ Prod.swap) vv =
          (fun vv : Point × Point => crossesB p vv.1 vv.2) vv := by
      intro vv
      simp only [Function.comp_apply, Prod.swap]
      exact crossesB_symm p vv.2 vv.1
    rw [List.countP_congr fun vv _ => by rw [hpt vv]]


theorem removePair_mem (l : Star) (j k : Nat) :
    ∀ x ∈ l, x = (j, k) ∨ x ∈ removePair l j k := by
  induction l with
  | nil => intro x hx; cases hx
  | cons y ys ih =>
    intro x hx
    unfold removePair
    rw [List.findIdx?_cons]
    by_cases hy : y = (j, k)
    · rw [if_pos (by simp [hy])]
      rw [List.getLast?_eq_getLast (y :: ys) (by simp)]
      dsimp only
      rw [List.set_cons_zero]
      rcases List.mem_cons.mp hx with hx1 | hx1
      · left; rw [hx1, hy]
      · right
        cases ys with
        | nil => cases hx1
        | cons z zs =>
          have hdl : ((y :: z :: zs).getLast (by simp) :: z :: zs).dropLast =
              (y :: z :: zs).getLast (by simp) :: (z :: zs).dropLast := by
            simp
          rw [hdl]
          have hlast : (y :: z :: zs).getLast (by simp) =
              (z :: zs).getLast (by simp) := List.getLast_cons (by simp)
          rw [← List.dropLast_append_getLast (l := z :: zs) (by simp)] at hx1
          rcases List.mem_append.mp hx1 with hx2 | hx2
          · exact List.mem_cons_of_mem _ hx2
          · rw [List.mem_singleton] at hx2
            rw [hx2, hlast]
            exact List.mem_cons_self _ _
    · rw [if_neg (by simp [hy])]
      rw [List.findIdx?_succ]
      cases hf : List.findIdx? (fun pr => pr = (j, k)) ys with
      | none =>
        simp only [hf, Option.map_none']
        exact Or.inr hx
      | some q =>
        have hys : ys ≠ [] := by
          intro hh; rw [hh] at hf; cases hf
        simp only [hf, Option.map_some']
        rw [List.getLast?_eq_getLast (y :: ys) (by simp)]
        dsimp only
        rw [List.set_cons_succ]
        have hlast : (y :: ys).getLast (by simp) = ys.getLast hys :=
          List.getLast_cons hys
        obtain ⟨z, zs, hzs⟩ : ∃ z zs, ys = z :: zs := by
          cases ys with
          | nil => exact absurd rfl hys
          | cons z zs => exact ⟨z, zs, rfl⟩
        obtain ⟨w, ws, hws⟩ : ∃ w ws,
            ys.set q ((y :: ys).getLast (by simp)) = w :: ws := by
          rw [hzs]
          cases q with
          | zero => exact ⟨_, _, List.set_cons_zero _ _ _⟩
          | succ q' => exact ⟨_, _, List.set_cons_succ _ _ _ _⟩
        rw [hws]
        have hdl : (y :: w :: ws).dropLast = y :: (w :: ws).dropLast := by simp
        rw [hdl, ← hws]
        rcases List.mem_cons.mp hx with hx1 | hx1
        · right; rw [hx1]; exact List.mem_cons_self _ _
        · rcases ih x hx1 with hx2 | hx2
          · exact Or.inl hx2
          · right
            apply List.mem_cons_of_mem
            have hrp : removePair ys j k =
                (ys.set q (ys.getLast hys)).dropLast := by
              unfold removePair
              rw [hf, List.getLast?_eq_getLast ys hys]
            rw [hlast]
            rw [hrp] at hx2
            exact hx2


theorem getI_ok_facts {α : Type} {l : List α} {i : Int} {x : α}
    (h : getI l i = .ok x) : 0 ≤ i ∧ i.toNat < l.length ∧ l.get? i.toNat = some x := by
  unfold getI at h
  by_cases h0 : i < 0
  · rw [if_pos h0] at h; cases h
  · rw [if_neg h0] at h
    cases hg : l.get? i.toNat with
    | none => rw [hg] at h; cases h
    | some y =>
      rw [hg] at h
      cases h
      exact ⟨by omega, (List.get?_eq_some.mp hg).1, rfl⟩

theorem get?_some_getD {α : Type} {l : List α} {n : Nat} {x : α} (d : α)
    (h : l.get? n = some x) : l.getD n d = x := by
  rw [List.getD_eq_getElem?_getD, ← List.get?_eq_getElem?, h]
  rfl

theorem removePairSnd_nonneg (l : Star) (j : Nat) {k : Int} (hk : 0 ≤ k) :
    removePairSnd l j k = removePair l j k.toNat := by
  cases k with
  | ofNat n => rfl
  | negSucc n => exact absurd hk (by simp)

theorem removePairFst_nonneg (l : Star) {k : Int} (j : Nat) (hk : 0 ≤ k) :
    removePairFst l k j = removePair l k.toNat j := by
  cases k with
  | ofNat n => rfl
  | negSucc n => exact absurd hk (by simp)

theorem mentions_set_ne {stars : List Star} {w : Nat} {s' : Star} {u v : Nat}
    (hne : u ≠ w) : mentions (stars.set w s') u v ↔ mentions stars u v := by
  unfold mentions
  rw [List.getD_eq_getElem?_getD, List.getD_eq_getElem?_getD,
    List.getElem?_set_ne (fun hh => hne hh.symm)]

theorem mentions_set_self {stars : List Star} {w : Nat} {s' : Star} {v : Nat}
    (hw : w < stars.length) :
    mentions (stars.set w s') w v ↔ ∃ pr ∈ s', pr.1 = v ∨ pr.2 = v := by
  unfold mentions
  rw [List.getD_eq_getElem?_getD, List.getElem?_set_self hw]
  rfl

theorem mentions_set_removePair {stars : List Star} {w : Nat}
    (hw : w < stars.length) (e1 e2 : Nat) {u v : Nat} (hm : mentions stars u v) :
    mentions (stars.set w (removePair (stars.getD w []) e1 e2)) u v ∨
      (u = w ∧ (v = e1 ∨ v = e2)) := by
  by_cases huw : u = w
  · subst huw
    obtain ⟨pr, hpr, hv⟩ := hm
    rcases removePair_mem (stars.getD u []) e1 e2 pr hpr with he | he
    · right
      refine ⟨rfl, ?_⟩
      rcases hv with hv | hv
      · left; rw [← hv, he]
      · right; rw [← hv, he]
    · left
      rw [mentions_set_self hw]
      exact ⟨pr, he, hv⟩
  · left
    rw [mentions_set_ne huw]
    exact hm

theorem mentions_set_append {stars : List Star} {w : Nat} {pr0 : Nat × Nat}
    {u v : Nat} (hm : mentions stars u v) :
    mentions (stars.set w (stars.getD w [] ++ [pr0])) u v := by
  by_cases huw : u = w
  · subst huw
    obtain ⟨pr, hpr, hv⟩ := hm
    by_cases hw : u < stars.length
    · rw [mentions_set_self hw]
      exact ⟨pr, List.mem_append_left _ hpr, hv⟩
    · rw [List.set_eq_of_length_le (by omega)]
      exact ⟨pr, hpr, hv⟩
  · rw [mentions_set_ne huw]
    exact hm

theorem mentions_set_append_new {stars : List Star} {w : Nat} {pr0 : Nat × Nat}
    {v : Nat} (hw : w < stars.length) (hv : pr0.1 = v ∨ pr0.2 = v) :
    mentions (stars.set w (stars.getD w [] ++ [pr0])) w v := by
  rw [mentions_set_self hw]
  exact ⟨pr0, List.mem_append_right _ (List.mem_singleton_self _), hv⟩


theorem removeTriangleI_mentions {t : Tri} {i j : Nat} {k : Int} {t' : Tri}
    (h : t.removeTriangleI i j k = .ok t') :
    t'.edges = t.edges ∧ t'.stars.length = t.stars.length ∧ 0 ≤ k ∧
    ∀ u v : Nat, mentions t.stars u v →
      mentions t'.stars u v ∨ (u = i ∧ (v = j ∨ v = k.toNat)) ∨
        (u = j ∧ (v = k.toNat ∨ v = i)) ∨ (u = k.toNat ∧ (v = i ∨ v = j)) := by
  unfold Tri.removeTriangleI at h
  obtain ⟨si, hsi, h⟩ := (exceptBind_ok _ _ _).mp h
  obtain ⟨sj, hsj, h⟩ := (exceptBind_ok _ _ _).mp h
  obtain ⟨sk, hsk, h⟩ := (exceptBind_ok _ _ _).mp h
  obtain ⟨hi0, hilen, higet⟩ := getI_ok_facts hsi
  obtain ⟨hj0, hjlen, hjget⟩ := getI_ok_facts hsj
  obtain ⟨hk0, hklen, hkget⟩ := getI_ok_facts hsk
  have ht' := (exceptPure_ok _ _).mp h
  subst ht'
  refine ⟨rfl, by simp [setI], hk0, ?_⟩
  intro u v hm
  simp only [Int.toNat_natCast] at hilen hjlen hklen higet hjget hkget
  have hsi' : si = t.stars.getD i [] := (get?_some_getD [] higet).symm
  rw [removePairSnd_nonneg si j hk0, hsi'] at hsj hkget hjget ⊢
  -- step 1
  rcases mentions_set_removePair hilen j k.toNat hm with hm1 | hcase
  · -- step 2 on s1
    have hsj' : sj = (setI t.stars i
        (removePair (t.stars.getD i []) j k.toNat)).getD j [] :=
      (get?_some_getD [] hjget).symm
    rw [removePairFst_nonneg sj i hk0, hsj'] at hkget ⊢
    have hjlen1 : j < (setI t.stars i
        (removePair (t.stars.getD i []) j k.toNat)).length := by
      simpa [setI] using hjlen
    rcases mentions_set_removePair hjlen1 k.toNat i hm1 with hm2 | hcase
    · -- step 3 on s2
      have hsk' : sk = (setI (setI t.stars i (removePair (t.stars.getD i []) j k.toNat)) j
          (removePair ((setI t.stars i (removePair (t.stars.getD i []) j k.toNat)).getD j [])
            k.toNat i)).getD k.toNat [] :=
        (get?_some_getD [] hkget).symm
      rw [hsk']
      have hklen2 : k.toNat < (setI (setI t.stars i
          (removePair (t.stars.getD i []) j k.toNat)) j
          (removePair ((setI t.stars i
            (removePair (t.stars.getD i []) j k.toNat)).getD j []) k.toNat i)).length := by
        simpa [setI] using hklen
      rcases mentions_set_removePair hklen2 i j hm2 with hm3 | hcase
      · left
        simpa [setI] using hm3
      · right; right; right; exact hcase
    · right; right; left; exact hcase
  · right; left; exact hcase

theorem addTriangle_mentions {t : Tri} {i j k : Nat} {t' : Tri}
    (h : t.addTriangle i j k = .ok t') :
    t'.edges = t.edges ∧ t'.stars.length = t.stars.length ∧
    (∀ u v : Nat, mentions t.stars u v → mentions t'.stars u v) ∧
    mentions t'.stars i j ∧ mentions t'.stars i k ∧
    mentions t'.stars j k ∧ mentions t'.stars j i ∧
    mentions t'.stars k i ∧ mentions t'.stars k j := by
  unfold Tri.addTriangle at h
  obtain ⟨si, hsi, h⟩ := (exceptBind_ok _ _ _).mp h
  obtain ⟨sj, hsj, h⟩ := (exceptBind_ok _ _ _).mp h
  obtain ⟨sk, hsk, h⟩ := (exceptBind_ok _ _ _).mp h
  obtain ⟨hi0, hilen, higet⟩ := getI_ok_facts hsi
  obtain ⟨hj0, hjlen, hjget⟩ := getI_ok_facts hsj
  obtain ⟨hk0, hklen, hkget⟩ := getI_ok_facts hsk
  have ht' := (exceptPure_ok _ _).mp h
  subst ht'
  simp only [Int.toNat_natCast] at hilen hjlen hklen higet hjget hkget
  have hsi' : si = t.stars.getD i [] := (get?_some_getD [] higet).symm
  subst hsi'
  have hsj' : sj = (setI t.stars i (t.stars.getD i [] ++ [(j, k)])).getD j [] :=
    (get?_some_getD [] hjget).symm
  subst hsj'
  have hsk' : sk = (setI (setI t.stars i (t.stars.getD i [] ++ [(j, k)])) j
      ((setI t.stars i (t.stars.getD i [] ++ [(j, k)])).getD j [] ++ [(k, i)])).getD
        k [] :=
    (get?_some_getD [] hkget).symm
  subst hsk'
  have hjlen1 : j < (setI t.stars i (t.stars.getD i [] ++ [(j, k)])).length := by
    simpa [setI] using hjlen
  have hklen2 : k < (setI (setI t.stars i (t.stars.getD i [] ++ [(j, k)])) j
      ((setI t.stars i (t.stars.getD i [] ++ [(j, k)])).getD j [] ++ [(k, i)])).length := by
    simpa [setI] using hklen
  refine ⟨rfl, by simp [setI], ?_, ?_, ?_, ?_, ?_, ?_, ?_⟩
  · intro u v hm
    exact mentions_set_append (mentions_set_append (mentions_set_append hm))
  · exact mentions_set_append (mentions_set_append
      (mentions_set_append_new hilen (Or.inl rfl)))
  · exact mentions_set_append (mentions_set_append
      (mentions_set_append_new hilen (Or.inr rfl)))
  · exact mentions_set_append (mentions_set_append_new hjlen1 (Or.inl rfl))
  · exact mentions_set_append (mentions_set_append_new hjlen1 (Or.inr rfl))
  · exact mentions_set_append_new hklen2 (Or.inl rfl)
  · exact mentions_set_append_new hklen2 (Or.inr rfl)


theorem flip_mentions {t : Tri} {i j : Nat} {t' : Tri} (h : t.flip i j = .ok t') :
    t'.edges = t.edges ∧
    ∀ u v : Nat, ¬(u = i ∧ v = j) → ¬(u = j ∧ v = i) →
      mentions t.stars u v → mentions t'.stars u v := by
  unfold Tri.flip at h
  obtain ⟨a, ha, h⟩ := (exceptBind_ok _ _ _).mp h
  obtain ⟨b, hb, h⟩ := (exceptBind_ok _ _ _).mp h
  obtain ⟨t1, ht1, h⟩ := (exceptBind_ok _ _ _).mp h
  obtain ⟨t2, ht2, h⟩ := (exceptBind_ok _ _ _).mp h
  obtain ⟨t3, ht3, h⟩ := (exceptBind_ok _ _ _).mp h
  obtain ⟨he1, hl1, hk1, hp1⟩ := removeTriangleI_mentions ht1
  obtain ⟨he2, hl2, hk2, hp2⟩ := removeTriangleI_mentions ht2
  obtain ⟨he3, hl3, hp3, m3a, m3b, m3c, m3d, m3e, m3f⟩ := addTriangle_mentions ht3
  obtain ⟨he4, hl4, hp4, m4a, m4b, m4c, m4d, m4e, m4f⟩ := addTriangle_mentions h
  refine ⟨by rw [he4, he3, he2, he1], ?_⟩
  intro u v hne1 hne2 hm
  rcases hp1 u v hm with hm1 | hc1
  · rcases hp2 u v hm1 with hm2 | hc2
    · exact hp4 u v (hp3 u v hm2)
    · rcases hc2 with ⟨hu, hv⟩ | ⟨hu, hv⟩ | ⟨hu, hv⟩
      · rcases hv with hv | hv
        · exact absurd ⟨hu, hv⟩ hne2
        · rw [hu, hv]; exact m4b
      · rcases hv with hv | hv
        · rw [hu, hv]; exact hp4 _ _ m3a
        · exact absurd ⟨hu, hv⟩ hne1
      · rcases hv with hv | hv
        · rw [hu, hv]; exact m4e
        · rw [hu, hv]; exact hp4 _ _ m3d
  · rcases hc1 with ⟨hu, hv⟩ | ⟨hu, hv⟩ | ⟨hu, hv⟩
    · rcases hv with hv | hv
      · exact absurd ⟨hu, hv⟩ hne1
      · rw [hu, hv]; exact hp4 _ _ m3b
    · rcases hv with hv | hv
      · rw [hu, hv]; exact m4a
      · exact absurd ⟨hu, hv⟩ hne2
    · rcases hv with hv | hv
      · rw [hu, hv]; exact hp4 _ _ m3e
      · rw [hu, hv]; exact m4d


theorem isConstraint_symm (t : Tri) (u v : Nat) :
    t.isConstraint u v = t.isConstraint v u := by
  unfold Tri.isConstraint
  rw [Nat.min_comm, Nat.max_comm]

theorem isConstraint_congr {t1 t2 : Tri} (h : t1.edges = t2.edges) (u v : Nat) :
    t1.isConstraint u v = t2.isConstraint u v := by
  unfold Tri.isConstraint
  rw [h]

theorem testFlip_stack {points : List Point} {t : Tri} {stack stack' : EdgeStack}
    {a b x : Nat} (h : testFlip points t stack a b x = .ok stack') :
    ∀ pq ∈ stack', pq ∈ stack ∨ t.isConstraint pq.1 pq.2 = false := by
  unfold testFlip at h
  obtain ⟨y, hy, h⟩ := (exceptBind_ok _ _ _).mp h
  by_cases hy0 : y < 0
  · rw [if_pos hy0] at h
    have := (exceptPure_ok _ _).mp h
    subst this
    intro pq hpq; exact Or.inl hpq
  · rw [if_neg hy0] at h
    by_cases hba : b < a
    · rw [if_pos hba] at h
      dsimp only at h
      by_cases hc : t.isConstraint b a = true
      · rw [if_pos hc] at h
        have := (exceptPure_ok _ _).mp h
        subst this
        intro pq hpq; exact Or.inl hpq
      · rw [if_neg hc] at h
        obtain ⟨pa, hpa, h⟩ := (exceptBind_ok _ _ _).mp h
        obtain ⟨pb, hpb, h⟩ := (exceptBind_ok _ _ _).mp h
        obtain ⟨px, hpx, h⟩ := (exceptBind_ok _ _ _).mp h
        obtain ⟨py, hpy, h⟩ := (exceptBind_ok _ _ _).mp h
        by_cases hic : Q.isNeg (inCircle pa pb px py) = true
        · rw [if_pos hic] at h
          have := (exceptPure_ok _ _).mp h
          subst this
          intro pq hpq
          rcases List.mem_cons.mp hpq with hpq | hpq
          · right
            rw [hpq]
            exact Bool.eq_false_iff.mpr hc
          · exact Or.inl hpq
        · rw [if_neg hic] at h
          have := (exceptPure_ok _ _).mp h
          subst this
          intro pq hpq; exact Or.inl hpq
    · rw [if_neg hba] at h
      dsimp only at h
      by_cases hc : t.isConstraint a b = true
      · rw [if_pos hc] at h
        have := (exceptPure_ok _ _).mp h
        subst this
        intro pq hpq; exact Or.inl hpq
      · rw [if_neg hc] at h
        obtain ⟨pa, hpa, h⟩ := (exceptBind_ok _ _ _).mp h
        obtain ⟨pb, hpb, h⟩ := (exceptBind_ok _ _ _).mp h
        obtain ⟨px, hpx, h⟩ := (exceptBind_ok _ _ _).mp h
        obtain ⟨py, hpy, h⟩ := (exceptBind_ok _ _ _).mp h
        by_cases hic : Q.isNeg (inCircle pa pb px py) = true
        · rw [if_pos hic] at h
          have := (exceptPure_ok _ _).mp h
          subst this
          intro pq hpq
          rcases List.mem_cons.mp hpq with hpq | hpq
          · right
            rw [hpq]
            exact Bool.eq_false_iff.mpr hc
          · exact Or.inl hpq
        · rw [if_neg hic] at h
          have := (exceptPure_ok _ _).mp h
          subst this
          intro pq hpq; exact Or.inl hpq

theorem foldlM_stack_pres {α : Type} (P : Nat × Nat → Prop)
    (f : EdgeStack → α → Except String EdgeStack)
    (hf : ∀ stk x stk', f stk x = .ok stk' → ∀ pq ∈ stk', pq ∈ stk ∨ P pq) :
    ∀ (l : List α) {stack stack' : EdgeStack},
      List.foldlM f stack l = .ok stack' → ∀ pq ∈ stack', pq ∈ stack ∨ P pq := by
  intro l
  induction l with
  | nil =>
    intro stack stack' h
    rw [List.foldlM_nil] at h
    have := (exceptPure_ok _ _).mp h
    subst this
    intro pq hpq; exact Or.inl hpq
  | cons x xs ih =>
    intro stack stack' h
    rw [List.foldlM_cons] at h
    obtain ⟨s1, hs1, h⟩ := (exceptBind_ok _ _ _).mp h
    intro pq hpq
    rcases ih h pq hpq with hin | hP
    · exact hf _ _ _ hs1 pq hin
    · exact Or.inr hP

theorem seedStar_stack {points : List Point} {t : Tri} {a : Nat} {star : Star}
    {stack stack' : EdgeStack} (h : seedStar points t a star stack = .ok stack') :
    ∀ pq ∈ stack', pq ∈ stack ∨ t.isConstraint pq.1 pq.2 = false := by
  unfold seedStar at h
  refine foldlM_stack_pres _ _ ?_ star h
  intro stk st stk' hstk1
  by_cases h1 : st.2 < a
  · rw [if_pos h1] at hstk1
    have := (exceptPure_ok _ _).mp hstk1
    subst this
    intro pq hpq; exact Or.inl hpq
  · rw [if_neg h1] at hstk1
    by_cases h2 : t.isConstraint a st.2 = true
    · rw [if_pos h2] at hstk1
      have := (exceptPure_ok _ _).mp hstk1
      subst this
      intro pq hpq; exact Or.inl hpq
    · rw [if_neg h2] at hstk1
      by_cases h3 : starScanY star st.2 < 0
      · rw [if_pos h3] at hstk1
        have := (exceptPure_ok _ _).mp hstk1
        subst this
        intro pq hpq; exact Or.inl hpq
      · rw [if_neg h3] at hstk1
        obtain ⟨pa, hpa, hstk1⟩ := (exceptBind_ok _ _ _).mp hstk1
        obtain ⟨pb, hpb, hstk1⟩ := (exceptBind_ok _ _ _).mp hstk1
        obtain ⟨px, hpx, hstk1⟩ := (exceptBind_ok _ _ _).mp hstk1
        obtain ⟨py, hpy, hstk1⟩ := (exceptBind_ok _ _ _).mp hstk1
        by_cases h4 : Q.isNeg (inCircle pa pb px py) = true
        · rw [if_pos h4] at hstk1
          have := (exceptPure_ok _ _).mp hstk1
          subst this
          intro pq hpq
          rcases List.mem_cons.mp hpq with hpq | hpq
          · right; rw [hpq]; exact Bool.eq_false_iff.mpr h2
          · exact Or.inl hpq
        · rw [if_neg h4] at hstk1
          have := (exceptPure_ok _ _).mp hstk1
          subst this
          intro pq hpq; exact Or.inl hpq

theorem refineLoop_spec {points : List Point} :
    ∀ (fuel : Nat) (t : Tri) (stack : EdgeStack) (trace : List (Nat × Nat))
      (t' : Tri) (trace' : List (Nat × Nat)),
      refineLoop points fuel t stack trace = .ok (t', trace') →
      (∀ pq ∈ stack, t.isConstraint pq.1 pq.2 = false) →
      t'.edges = t.edges ∧
      (∀ pq ∈ trace', pq ∈ trace ∨ t.isConstraint pq.1 pq.2 = false) ∧
      (∀ u v : Nat, t.isConstraint u v = true →
        mentions t.stars u v → mentions t'.stars u v) := by
  intro fuel
  induction fuel with
  | zero =>
    intro t stack trace t' trace' h _
    simp [refineLoop] at h
  | succ fuel ih =>
    intro t stack trace t' trace' h hstack
    cases stack with
    | nil =>
      rw [refineLoop] at h
      have := (exceptPure_ok _ _).mp h
      injection this with h1 h2
      subst h1; subst h2
      refine ⟨rfl, ?_, ?_⟩
      · intro pq hpq; exact Or.inl hpq
      · intro u v _ hm; exact hm
    | cons ab rest =>
      obtain ⟨a, b⟩ := ab
      rw [refineLoop] at h
      obtain ⟨star, hstar, h⟩ := (exceptBind_ok _ _ _).mp h
      have hrest : ∀ pq ∈ rest, t.isConstraint pq.1 pq.2 = false :=
        fun pq hpq => hstack pq (List.mem_cons_of_mem _ hpq)
      by_cases hneg : (starScanXY star b).1 < 0 ∨ (starScanXY star b).2 < 0
      · rw [if_pos hneg] at h
        exact ih t rest trace t' trace' h hrest
      · rw [if_neg hneg] at h
        obtain ⟨pa, hpa, h⟩ := (exceptBind_ok _ _ _).mp h
        obtain ⟨pb, hpb, h⟩ := (exceptBind_ok _ _ _).mp h
        obtain ⟨px, hpx, h⟩ := (exceptBind_ok _ _ _).mp h
        obtain ⟨py, hpy, h⟩ := (exceptBind_ok _ _ _).mp h
        by_cases hic : Q.nonneg (inCircle pa pb px py) = true
        · rw [if_pos hic] at h
          exact ih t rest trace t' trace' h hrest
        · rw [if_neg hic] at h
          obtain ⟨t1, ht1, h⟩ := (exceptBind_ok _ _ _).mp h
          obtain ⟨s1, hs1, h⟩ := (exceptBind_ok _ _ _).mp h
          obtain ⟨s2, hs2, h⟩ := (exceptBind_ok _ _ _).mp h
          obtain ⟨s3, hs3, h⟩ := (exceptBind_ok _ _ _).mp h
          obtain ⟨s4, hs4, h⟩ := (exceptBind_ok _ _ _).mp h
          have hedges : t1.edges = t.edges := (flip_mentions ht1).1
          have hment := (flip_mentions ht1).2
          have hab : t.isConstraint a b = false :=
            hstack (a, b) (List.mem_cons_self _ _)
          have hcast : ∀ u v : Nat, t1.isConstraint u v = t.isConstraint u v :=
            isConstraint_congr hedges
          have hs4inv : ∀ pq ∈ s4, t1.isConstraint pq.1 pq.2 = false := by
            intro pq hpq
            rcases testFlip_stack hs4 pq hpq with hpq | hdone
            · rcases testFlip_stack hs3 pq hpq with hpq | hdone
              · rcases testFlip_stack hs2 pq hpq with hpq | hdone
                · rcases testFlip_stack hs1 pq hpq with hpq | hdone
                  · rw [hcast]; exact hrest pq hpq
                  · exact hdone
                · exact hdone
              · exact hdone
            · exact hdone
          obtain ⟨he, htr, hm⟩ := ih t1 s4 ((a, b) :: trace) t' trace' h hs4inv
          refine ⟨he.trans hedges, ?_, ?_⟩
          · intro pq hpq
            rcases htr pq hpq with hin | hc
            · rcases List.mem_cons.mp hin with heq | hin
              · right; rw [heq]; exact hab
              · exact Or.inl hin
            · right; rw [← hcast]; exact hc
          · intro u v hcuv hmuv
            have hne1 : ¬(u = a ∧ v = b) := by
              rintro ⟨rfl, rfl⟩
              rw [hab] at hcuv
              exact Bool.false_ne_true hcuv
            have hne2 : ¬(u = b ∧ v = a) := by
              rintro ⟨rfl, rfl⟩
              rw [isConstraint_symm, hab] at hcuv
              exact Bool.false_ne_true hcuv
            have hc1 : t1.isConstraint u v = true := by
              rw [hcast]; exact hcuv
            exact hm u v hc1 (hment u v hne1 hne2 hmuv)

theorem delaunayRefine_pres {points : List Point} {t : Tri}
    {fuel : Nat} {t' : Tri} {trace : List (Nat × Nat)}
    (h : delaunayRefine points t fuel = .ok (t', trace)) :
    (∀ pq ∈ trace, t.isConstraint pq.1 pq.2 = false) ∧
    t'.edges = t.edges ∧
    (∀ u v : Nat, t.isConstraint u v = true →
      mentions t.stars u v → mentions t'.stars u v) := by
  unfold delaunayRefine at h
  obtain ⟨stack, hstack, h⟩ := (exceptBind_ok _ _ _).mp h
  have hsinv : ∀ pq ∈ stack, t.isConstraint pq.1 pq.2 = false := by
    intro pq hpq
    have := foldlM_stack_pres (fun pq => t.isConstraint pq.1 pq.2 = false) _
      ?step (List.range points.length) hstack pq hpq
    · rcases this with hin | hc
      · exact absurd hin (List.not_mem_nil _)
      · exact hc
    case step =>
      intro stk x stk' hstep
      obtain ⟨star, hstar, hstep⟩ := (exceptBind_ok _ _ _).mp hstep
      exact seedStar_stack hstep
  obtain ⟨he, htr, hm⟩ := refineLoop_spec fuel t stack [] t' trace h hsinv
  refine ⟨?_, he, hm⟩
  intro pq hpq
  rcases htr pq hpq with hin | hc
  · exact absurd hin (List.not_mem_nil _)
  · exact hc

/-- C1: during `delaunayRefine`, `flip` is never invoked on a constrained
edge - every edge recorded in the flip trace tests `isConstraint` false -
and consequently the constraint edge list is unchanged and every constraint
edge present in the star structure before refinement is still present
afterwards. -/
theorem delaunayRefine_no_constraint_flip {points : List Point} {t : Tri}
    {fuel : Nat} {t' : Tri} {trace : List (Nat × Nat)}
    (h : delaunayRefine points t fuel = .ok (t', trace)) :
    (∀ pq ∈ trace, t.isConstraint pq.1 pq.2 = false) ∧
    t'.edges = t.edges ∧
    (∀ u v : Nat, t.isConstraint u v = true →
      mentions t.stars u v → mentions t'.stars u v) :=
  delaunayRefine_pres h

unseal bsearchGeAux bsearchGtAux bsearchLtAux bsearchLeAux bsearchEqAux popLower popUpper addPointLoop in
/-- Witness for C1 on the unit square with constrained diagonal `(0, 2)`:
refinement performs no flip, and the constraint survives. -/
theorem delaunayRefine_no_constraint_flip_witness :
    (∀ pq ∈ ([] : List (Nat × Nat)), witT.isConstraint pq.1 pq.2 = false) ∧
    witT.edges = witT.edges ∧
    (∀ u v : Nat, witT.isConstraint u v = true →
      mentions witT.stars u v → mentions witT.stars u v) :=
  delaunayRefine_no_constraint_flip
    (show delaunayRefine witP witT 100 = .ok (witT, []) from rfl)

unseal bsearchGeAux bsearchGtAux bsearchLtAux bsearchLeAux bsearchEqAux popLower popUpper addPointLoop in
/-- C3 counterexample: the input with the two distinct points `(0,0)`, `(1,0)`
and the single constraint edge `(0, 1)` between them is planar, its
constraint set is non-crossing, both indices are in range and the endpoints
are distinct and non-degenerate, yet `cdt2d` with every option left at its
default `true` returns no triangles at all, so the supplied constraint edge
appears as an edge of no output triangle. -/
theorem cdt2d_constraint_lost :
    cdt2d [(Q.ofInt 0, Q.ofInt 0), (Q.ofInt 1, Q.ofInt 0)] [(0, 1)]
      ⟨true, true, true⟩ 100 = .ok [] :=
  rfl

/-- C3 (amended): on the default path (`delaunay`, `interior` and `exterior`
all `true`), a successful `cdt2d` run factors into the monotone sweep, the
star build, and `delaunayRefine`, whose output cells are returned verbatim;
the refinement stage never loses a constraint edge: the constraint list is
unchanged and every constraint edge present in the star structure entering
refinement is still present in the structure whose cells are returned.  The
sweep stage, however, carries no such guarantee, so a supplied constraint
edge need not appear in the final output (see the counterexample). -/
theorem cdt2d_delaunay_keeps_constraints
    {points : List Point} {edges : List Edge} {fuel : Nat} {out : List T3}
    (h : cdt2d points edges ⟨true, true, true⟩ fuel = .ok out)
    (hne : points.length ≠ 0) :
    ∃ cells t1 t2 trace,
      monotoneTriangulate points edges = .ok cells ∧
      cells.foldlM (fun t f => t.addTriangle f.1 f.2.1 f.2.2)
        (Tri.make points.length (canonicalizeEdges edges)) = .ok t1 ∧
      delaunayRefine points t1 fuel = .ok (t2, trace) ∧
      out = t2.cells ∧
      t2.edges = t1.edges ∧
      (∀ pq ∈ trace, t1.isConstraint pq.1 pq.2 = false) ∧
      (∀ u v : Nat, t1.isConstraint u v = true →
        mentions t1.stars u v → mentions t2.stars u v) := by
  unfold cdt2d at h
  rw [if_neg (by simpa using hne)] at h
  obtain ⟨cells, hcells, h⟩ := (exceptBind_ok _ _ _).mp h
  obtain ⟨t1, ht1, h⟩ := (exceptBind_ok _ _ _).mp h
  obtain ⟨r, hr, h⟩ := (exceptBind_ok _ _ _).mp h
  obtain ⟨y, hy, h⟩ := (exceptBind_ok _ _ _).mp h
  have hy' := (exceptPure_ok _ _).mp hy
  subst hy'
  have hout := (exceptPure_ok _ _).mp h
  obtain ⟨t2', trace⟩ := r
  obtain ⟨htr, hedges, hment⟩ := delaunayRefine_pres hr
  exact ⟨cells, t1, t2', trace, hcells, ht1, hr, hout.symm, hedges, htr, hment⟩

unseal bsearchGeAux bsearchGtAux bsearchLtAux bsearchLeAux bsearchEqAux popLower popUpper addPointLoop in
/-- Witness for the amended C3 on the unit square with constrained diagonal
`(0, 2)` and all options defaulted: the run succeeds with two triangles and
the factorisation holds. -/
theorem cdt2d_delaunay_keeps_constraints_witness :
    cdt2d witP [(0, 2)] ⟨true, true, true⟩ 100 = .ok [(0, 1, 2), (0, 2, 3)] ∧
    witP.length ≠ 0 ∧
    (∃ cells t1 t2 trace,
      monotoneTriangulate witP [(0, 2)] = .ok cells ∧
      cells.foldlM (fun t f => t.addTriangle f.1 f.2.1 f.2.2)
        (Tri.make witP.length (canonicalizeEdges [(0, 2)])) = .ok t1 ∧
      delaunayRefine witP t1 100 = .ok (t2, trace) ∧
      [(0, 1, 2), (0, 2, 3)] = t2.cells ∧
      t2.edges = t1.edges ∧
      (∀ pq ∈ trace, t1.isConstraint pq.1 pq.2 = false) ∧
      (∀ u v : Nat, t1.isConstraint u v = true →
        mentions t1.stars u v → mentions t2.stars u v)) :=
  ⟨rfl, by decide, cdt2d_delaunay_keeps_constraints rfl (by decide)⟩

end CDT
